import Mathlib

set_option maxHeartbeats 1000000

/-!
Verification development for the miele-tg-search-bot repository.

The repository is a Telegram price-comparison bot.  Its text pipeline lives
in utils.py (normalize_text, remove_miele, extract_price_from_text), the
relevance scoring, deduplication and top-3 selection live in the per-site
scrapers (parse_tehnikapremium.py, parse_mieles.py, parse_hausdorf.py,
parse_miele_unique.py), and the cache plus competitor fan-out live in
main.py.  Below, every definition is a shallow embedding of the Python
source: Python strings become List Char / String, Python floats used for
relevance scores and prices become Rat, Python None becomes Option, and the
float inf sentinel becomes the none case of Option Rat.

Character-level remarks on the embedding of Python primitives:
  - str.lower is modelled on the character ranges that occur in this
    pipeline (ASCII A-Z and Cyrillic А-Я plus Ё); on every other character
    the model is the identity, which agrees with Python on all characters
    the surrounding regexes can keep.
  - the whitespace class of the regexes is modelled by the six ASCII
    whitespace characters, and the word class (for word boundaries) by
    ASCII alphanumerics, the underscore and the Cyrillic letters; these
    agree with Python on the alphabet that normalize_text can produce.
-/

/-- Model of the characters matched by a whitespace class in the Python
regexes of utils.py (space, tab, newline, carriage return, vertical tab,
form feed). -/
def pySpace (c : Char) : Bool :=
  c == ' ' || c == '\t' || c == '\n' || c == '\r' || c.toNat == 11 || c.toNat == 12

/-- Model of Python str.lower on the ranges relevant to this code base:
ASCII A-Z, Cyrillic А-Я (U+0410 to U+042F) and Ё (U+0401).  All characters
kept by the normalize_text filter are fixed points of Python lower and of
this model. -/
def pyLower (c : Char) : Char :=
  if 65 ≤ c.toNat ∧ c.toNat ≤ 90 then Char.ofNat (c.toNat + 32)
  else if c.toNat = 0x401 then Char.ofNat 0x451
  else if 0x410 ≤ c.toNat ∧ c.toNat ≤ 0x42F then Char.ofNat (c.toNat + 32)
  else c

/-- The character class kept by the regex sub in normalize_text:
lowercase ASCII letters, ASCII digits, Cyrillic а-я (U+0430 to U+044F) and
whitespace.  Everything else is deleted. -/
def keepChar (c : Char) : Bool :=
  (decide (97 ≤ c.toNat ∧ c.toNat ≤ 122)) ||
  (decide (48 ≤ c.toNat ∧ c.toNat ≤ 57)) ||
  (decide (0x430 ≤ c.toNat ∧ c.toNat ≤ 0x44F)) ||
  pySpace c

/-- Model of the word-character class used by the word boundary in the
regex of remove_miele: ASCII alphanumerics, underscore, and the Cyrillic
letters (upper and lower case, plus Ё and ё). -/
def isWordChar (c : Char) : Bool :=
  (decide (97 ≤ c.toNat ∧ c.toNat ≤ 122)) ||
  (decide (65 ≤ c.toNat ∧ c.toNat ≤ 90)) ||
  (decide (48 ≤ c.toNat ∧ c.toNat ≤ 57)) ||
  c == '_' ||
  (decide (0x410 ≤ c.toNat ∧ c.toNat ≤ 0x44F)) ||
  c.toNat == 0x401 || c.toNat == 0x451

/-- The scan implementing the regex substitution that collapses every
whitespace run to a single space character.  The boolean records whether
the previous character was part of a whitespace run whose single space has
already been emitted. -/
def collapseWsAux : List Char → Bool → List Char
  | [], _ => []
  | c :: cs, prevSpace =>
    if pySpace c then
      if prevSpace then collapseWsAux cs true
      else ' ' :: collapseWsAux cs true
    else c :: collapseWsAux cs false

/-- re.sub of a whitespace-plus pattern with a single space. -/
def collapseWs (l : List Char) : List Char := collapseWsAux l false

/-- Python str.strip on a character list: drop whitespace from both ends. -/
def pyStrip (l : List Char) : List Char :=
  ((l.dropWhile pySpace).reverse.dropWhile pySpace).reverse

/-- Python str.strip at the String level. -/
def pyStripStr (s : String) : String :=
  String.mk (pyStrip s.data)

/-- One step (from the right) of whitespace tokenisation: the boolean says
whether the list already consumed begins with a token character, so that a
new non-space character either extends that first token or opens a new
one. -/
def splitStep (c : Char) : List (List Char) × Bool → List (List Char) × Bool
  | (ts, inTok) =>
    if pySpace c then (ts, false)
    else
      match ts, inTok with
      | t :: rest, true => ((c :: t) :: rest, true)
      | _, _ => ([c] :: ts, true)

/-- Tokenisation state of a character list. -/
def splitAux (l : List Char) : List (List Char) × Bool :=
  l.foldr splitStep ([], false)

/-- The whitespace-separated tokens of a character list (the model of
Python str.split with no separator argument): maximal runs of
non-whitespace characters, in order. -/
def wsTokens (l : List Char) : List (List Char) :=
  (splitAux l).1

/-- Join a list of tokens with single spaces. -/
def joinTokens (ts : List (List Char)) : List Char :=
  List.intercalate [' '] ts

/-- Python str.split with no argument, at the String level. -/
def pySplit (s : String) : List String :=
  (wsTokens s.data).map String.mk

/-- str.replace folding ё (U+0451) to е (U+0435), per character. -/
def foldYo (c : Char) : Char :=
  if c = Char.ofNat 0x451 then Char.ofNat 0x435 else c

/-- The character list left after the lowering, folding and filtering
steps of normalize_text, before whitespace collapsing. -/
def normFiltered (s : String) : List Char :=
  ((s.data.map pyLower).map foldYo).filter keepChar

/-- utils.normalize_text: lower-case, fold ё to е, delete every character
outside the class a-z 0-9 а-я whitespace, collapse whitespace runs to one
space, and strip. -/
def normalize_text (s : String) : String :=
  String.mk (pyStrip (collapseWs (normFiltered s)))

/-- One position of the scan performed by re.sub of a word-bounded, case
insensitive literal miele: does the list start with the five letters of
miele (case insensitively) followed by a non-word character or the end? -/
def mieleHead : List Char → Bool
  | c1 :: c2 :: c3 :: c4 :: c5 :: rest =>
    pyLower c1 == 'm' && pyLower c2 == 'i' && pyLower c3 == 'e' &&
    pyLower c4 == 'l' && pyLower c5 == 'e' &&
    (match rest with
     | [] => true
     | d :: _ => !isWordChar d)
  | _ => false

/-- The left-to-right scan of re.sub deleting every word-bounded, case
insensitive occurrence of miele.  The boolean records whether the previous
character of the original text was a word character (the left word
boundary). -/
def stripMieleScan : List Char → Bool → List Char
  | c1 :: c2 :: c3 :: c4 :: c5 :: rest, prevWord =>
    if !prevWord && mieleHead (c1 :: c2 :: c3 :: c4 :: c5 :: rest) then
      stripMieleScan rest true
    else
      c1 :: stripMieleScan (c2 :: c3 :: c4 :: c5 :: rest) (isWordChar c1)
  | c :: cs, _ => c :: stripMieleScan cs (isWordChar c)
  | [], _ => []

/-- utils.remove_miele: delete every word-bounded, case insensitive
occurrence of miele, then collapse whitespace runs and strip. -/
def remove_miele (s : String) : String :=
  String.mk (pyStrip (collapseWs (stripMieleScan s.data false)))

/-- The numeric value of a list of ASCII digits, most significant first
(the model of Python int applied to a nonempty digit string). -/
def digitsToNat (l : List Char) : Nat :=
  l.foldl (fun n c => 10 * n + (c.toNat - 48)) 0

/-- utils.extract_price_from_text: delete every non-digit character and
parse the remainder with int; on an empty remainder int raises ValueError,
which the function catches, returning None. -/
def extract_price_from_text (s : String) : Option Nat :=
  let ds := s.data.filter Char.isDigit
  if ds.isEmpty then none else some (digitsToNat ds)


/-- Python substring test helper: does the first list occur at the start of
the second? -/
def listStarts : List Char → List Char → Bool
  | [], _ => true
  | _ :: _, [] => false
  | n :: ns, h :: hs => n == h && listStarts ns hs

/-- Does the second list occur as a contiguous run inside the first? -/
def containsList (needle : List Char) : List Char → Bool
  | [] => needle.isEmpty
  | c :: cs => listStarts needle (c :: cs) || containsList needle cs

/-- The Python expression needle in hay on strings. -/
def substrB (needle hay : String) : Bool :=
  containsList needle.data hay.data

/-- The Python expression all(word in title for word in q.split()). -/
def allWordsIn (q title : String) : Bool :=
  (pySplit q).all (fun w => substrB w title)

/-- Minimum of two rationals, written explicitly so that it reduces in the
kernel. -/
def rmin (a b : ℚ) : ℚ := if a ≤ b then a else b

/-- Addition of two rationals written through mkRat so that it reduces in
the kernel; provably equal to addition on ℚ. -/
def radd (a b : ℚ) : ℚ :=
  mkRat (a.num * b.den + b.num * a.den) (a.den * b.den)

/-- radd is rational addition. -/
theorem radd_eq_add (a b : ℚ) : radd a b = a + b := by
  conv_rhs => rw [← Rat.num_divInt_den a, ← Rat.num_divInt_den b]
  rw [Rat.divInt_add_divInt _ _
    (Int.natCast_ne_zero.2 a.den_nz) (Int.natCast_ne_zero.2 b.den_nz)]
  rw [radd, Rat.mkRat_eq_divInt]
  push_cast
  rfl

/-- min against a running best that starts at the float inf sentinel
(none); min(inf, v) is v and min(some x, v) is the smaller of the two. -/
def oMin (s : Option ℚ) (v : ℚ) : Option ℚ :=
  some (match s with | none => v | some x => rmin x v)

/-- The relevance ladder of parse_tehnikapremium.py (lines 112-142) as a
function of its eight tier conditions, mirroring the if/elif structure of
the code; the inputs are, in order, the conditions of the tiers with
floors 0, 0.5, 1, 2, 3, 4, 5 and 6. -/
def tpFloorB (b0 b05 b1 b2 b3 b4 b5 b6 : Bool) : Option ℚ :=
  let s0 : Option ℚ := none
  let s1 := if b0 then oMin s0 0 else if b05 then oMin s0 (mkRat 1 2) else s0
  let s2 := if b1 then oMin s1 1 else if b2 then oMin s1 2 else s1
  let s3 := if b3 then oMin s2 3 else if b4 then oMin s2 4 else s2
  let s4 := if b5 then oMin s3 5 else s3
  if b6 then oMin s4 6 else s4

/-- The eight tier conditions of parse_tehnikapremium.py, in code order:
cot and csq are the cleaned original title and cleaned search query, nt
and na the normalized candidate title and normalized article. -/
def tpFloor (cot csq nt na : String) : Option ℚ :=
  tpFloorB (csq != "" && csq == na) (cot != "" && cot == na)
    (cot != "" && cot == nt) (csq != "" && csq == nt)
    (cot != "" && substrB cot nt) (csq != "" && substrB csq nt)
    (cot != "" && allWordsIn cot nt) (csq != "" && allWordsIn csq nt)

/-- The full relevance score of parse_tehnikapremium.py: tier floor plus
0.01 times the length of the cleaned candidate title, none when no tier
matched (the float inf sentinel). -/
def tpScore (cot csq nt na : String) : Option ℚ :=
  (tpFloor cot csq nt na).map (fun f => radd f (mkRat nt.length 100))

/-- The relevance ladder of parse_mieles.py (lines 104-130) as a function
of its six tier conditions, mirroring the if/elif structure of the code;
the inputs are the conditions of the tiers with floors 0 to 5. -/
def mielesFloorB (b0 b1 b2 b3 b4 b5 : Bool) : Option ℚ :=
  let s0 : Option ℚ := none
  let s1 := if b0 then oMin s0 0 else if b1 then oMin s0 1 else s0
  let s2 := if b2 then oMin s1 2 else if b3 then oMin s1 3 else s1
  let s3 := if b4 then oMin s2 4 else s2
  if b5 then oMin s3 5 else s3

/-- The six tier conditions of parse_mieles.py, in code order. -/
def mielesFloor (cot csq ct : String) : Option ℚ :=
  mielesFloorB (cot != "" && cot == ct) (csq != "" && csq == ct)
    (cot != "" && substrB cot ct) (csq != "" && substrB csq ct)
    (cot != "" && allWordsIn cot ct) (csq != "" && allWordsIn csq ct)

/-- The full relevance score of parse_mieles.py: tier floor plus 0.01
times the length of the cleaned candidate title. -/
def mielesScore (cot csq ct : String) : Option ℚ :=
  (mielesFloor cot csq ct).map (fun f => radd f (mkRat ct.length 100))

/-- The specification reading of the tehnikapremium ladder: the list of
floors of all matching tiers, a tier being evaluated only when its
reference query is non-empty. -/
def tpTiersB (b0 b05 b1 b2 b3 b4 b5 b6 : Bool) : List ℚ :=
  (if b0 then [0] else []) ++ (if b05 then [mkRat 1 2] else []) ++
  (if b1 then [1] else []) ++ (if b2 then [2] else []) ++
  (if b3 then [3] else []) ++ (if b4 then [4] else []) ++
  (if b5 then [5] else []) ++ (if b6 then [6] else [])

/-- The specification reading of the mieles ladder: floors of all
matching tiers. -/
def mielesTiersB (b0 b1 b2 b3 b4 b5 : Bool) : List ℚ :=
  (if b0 then [0] else []) ++ (if b1 then [1] else []) ++
  (if b2 then [2] else []) ++ (if b3 then [3] else []) ++
  (if b4 then [4] else []) ++ (if b5 then [5] else [])

/-- Minimum of a list of rationals, none for the empty list (the
sentinel). -/
def minList : List ℚ → Option ℚ
  | [] => none
  | x :: xs => some (xs.foldl rmin x)

/-- Specification score for tehnikapremium: minimum floor over all
matching tiers. -/
def specLadderTP (cot csq nt na : String) : Option ℚ :=
  minList (tpTiersB (csq != "" && csq == na) (cot != "" && cot == na)
    (cot != "" && cot == nt) (csq != "" && csq == nt)
    (cot != "" && substrB cot nt) (csq != "" && substrB csq nt)
    (cot != "" && allWordsIn cot nt) (csq != "" && allWordsIn csq nt))

/-- Specification score for mieles: minimum floor over all matching
tiers. -/
def specLadderMieles (cot csq ct : String) : Option ℚ :=
  minList (mielesTiersB (cot != "" && cot == ct) (csq != "" && csq == ct)
    (cot != "" && substrB cot ct) (csq != "" && substrB csq ct)
    (cot != "" && allWordsIn cot ct) (csq != "" && allWordsIn csq ct))

/-- The if/elif ladder of tehnikapremium computes exactly the minimum
matching tier floor, over every combination of tier conditions. -/
theorem tpFloorB_eq_minTiers : ∀ b0 b05 b1 b2 b3 b4 b5 b6,
    tpFloorB b0 b05 b1 b2 b3 b4 b5 b6 = minList (tpTiersB b0 b05 b1 b2 b3 b4 b5 b6) := by
  decide

/-- The if/elif ladder of mieles computes exactly the minimum matching
tier floor, over every combination of tier conditions. -/
theorem mielesFloorB_eq_minTiers : ∀ b0 b1 b2 b3 b4 b5,
    mielesFloorB b0 b1 b2 b3 b4 b5 = minList (mielesTiersB b0 b1 b2 b3 b4 b5) := by
  decide

/-- A raw product record of the mieles JSON API: the title and url fields
default to the empty string, the price field is None (outer none) or a
JSON value that float either converts (some value) or rejects with
ValueError (inner none). -/
structure MielesItem where
  title : String
  link : String
  price : Option (Option ℚ)
deriving DecidableEq

/-- An accepted candidate of parse_mieles: the tuple appended to
found_products. -/
structure MielesHit where
  score : ℚ
  title : String
  link : String
  price : ℚ
deriving DecidableEq

/-- A result dictionary of parse_mieles (title, link, price). -/
structure MielesResult where
  title : String
  link : String
  price : ℚ
deriving DecidableEq

/-- Projection from an accepted candidate to its result dictionary. -/
def mielesResultOf (h : MielesHit) : MielesResult :=
  ⟨h.title, h.link, h.price⟩

/-- One iteration of the candidate loop of parse_mieles.py (lines 88-142):
skip incomplete records, clean the title, skip seen links, score, skip the
sentinel, convert the price, and append to the seen set and the found
list together. -/
def mielesStep (cot csq : String) (st : List String × List MielesHit)
    (it : MielesItem) : List String × List MielesHit :=
  if it.title == "" || it.link == "" || it.price == none then st
  else
    let ct := remove_miele (normalize_text it.title)
    if it.link ∈ st.1 then st
    else
      match mielesScore cot csq ct with
      | none => st
      | some sc =>
        match it.price with
        | some (some p) => (st.1 ++ [it.link], st.2 ++ [⟨sc, it.title, it.link, p⟩])
        | _ => st

/-- A raw product element of the tehnikapremium catalog page: each field
is none when the corresponding HTML element or attribute is absent. -/
structure TPItem where
  titleElem : Option String
  linkElem : Option (Option String)
  artElem : Option String
  priceElem : Option String
deriving DecidableEq

/-- An accepted candidate dictionary of parse_tehnikapremium
(score, title, link, price, article). -/
structure TPHit where
  score : ℚ
  title : String
  link : String
  price : ℚ
  article : String
deriving DecidableEq

/-- The scan of str.replace deleting every occurrence of the literal
Артикул: (eight characters). -/
def removeArtScan : List Char → List Char
  | c1 :: c2 :: c3 :: c4 :: c5 :: c6 :: c7 :: c8 :: rest =>
    if [c1, c2, c3, c4, c5, c6, c7, c8] = "Артикул:".data then removeArtScan rest
    else c1 :: removeArtScan (c2 :: c3 :: c4 :: c5 :: c6 :: c7 :: c8 :: rest)
  | c :: cs => c :: removeArtScan cs
  | [] => []

/-- The article text of a tehnikapremium product: element text with the
Артикул: label removed and stripped. -/
def tpArticleText (a : String) : String :=
  pyStripStr (String.mk (removeArtScan a.data))

/-- The price parsing of parse_tehnikapremium.py applied to the cleaned
price text (only digits, commas and periods left): re.search of digits,
an optional separator and more digits, comma replaced by period, parsed
as a decimal number. -/
def tpPriceFromClean (l : List Char) : Option ℚ :=
  match l.dropWhile (fun c => !c.isDigit) with
  | [] => none
  | d :: ds =>
    let ip := (d :: ds).takeWhile Char.isDigit
    let rest := (d :: ds).dropWhile Char.isDigit
    match rest with
    | sep :: rest2 =>
      if sep == '.' || sep == ',' then
        let fp := rest2.takeWhile Char.isDigit
        some (radd (mkRat (digitsToNat ip) 1) (mkRat (digitsToNat fp) (10 ^ fp.length)))
      else some (digitsToNat ip)
    | [] => some (digitsToNat ip)

/-- Price extraction of parse_tehnikapremium.py lines 95-106: delete
every character that is not a digit, comma or period, then parse the
first decimal run. -/
def tpParsePrice (s : String) : Option ℚ :=
  tpPriceFromClean (s.data.filter (fun c => c.isDigit || c == ',' || c == '.'))

/-- One iteration of the candidate loop of parse_tehnikapremium.py
(lines 68-156): skip records with a missing title or link element or
href, build the absolute link, skip seen links, read the article, parse
the price, clean title and article, score, skip the sentinel, and append
to the seen set and the found list together. -/
def tpStep (cot csq : String) (st : List String × List TPHit)
    (it : TPItem) : List String × List TPHit :=
  match it.titleElem, it.linkElem with
  | some title, some hrefOpt =>
    (match hrefOpt with
     | none => st
     | some href =>
       let fullLink := "https://tehnikapremium.ru" ++ href
       if fullLink ∈ st.1 then st
       else
         let article := match it.artElem with
           | some a => tpArticleText a
           | none => ""
         match it.priceElem with
         | none => st
         | some ptxt =>
           match tpParsePrice ptxt with
           | none => st
           | some price =>
             let nt := remove_miele (normalize_text title)
             let na := normalize_text article
             match tpScore cot csq nt na with
             | none => st
             | some sc =>
               (st.1 ++ [fullLink], st.2 ++ [⟨sc, title, fullLink, price, article⟩]))
  | _, _ => st

/-- Python list.sort with a score key is a stable ascending sort; any
stable ascending sort computes the same list, so it is modelled by
insertion sort with the non-strict order on scores (an incoming earlier
element is placed before equal-scored later elements). -/
def sortByScore (key : α → ℚ) (l : List α) : List α :=
  List.insertionSort (fun a b => key a ≤ key b) l

/-- parse_mieles.py lines 85-159: fold the candidate loop over the raw
items starting from an empty seen set, sort the found list by score,
take the first three, and project each to its result dictionary.  The
cot and csq arguments are the already cleaned original title and search
query. -/
def parse_mieles_select (cot csq : String) (items : List MielesItem) :
    List MielesResult :=
  ((sortByScore MielesHit.score
      ((items.foldl (mielesStep cot csq) ([], [])).2)).take 3).map mielesResultOf

/-- parse_tehnikapremium.py lines 66-162: fold the candidate loop over
the raw items starting from an empty seen set, sort by score and take
the first three. -/
def parse_tehnikapremium_select (cot csq : String) (items : List TPItem) :
    List TPHit :=
  (sortByScore TPHit.score
      ((items.foldl (tpStep cot csq) ([], [])).2)).take 3


/-- Specification-side eligibility and scoring of one raw mieles item:
some accepted candidate when the record is complete, the price converts
and some tier matches; none otherwise.  Mirrors the per-item part of the
loop of parse_mieles.py without the seen set. -/
def mielesHitFn (cot csq : String) (it : MielesItem) : Option MielesHit :=
  if it.title == "" || it.link == "" || it.price == none then none
  else
    let ct := remove_miele (normalize_text it.title)
    match mielesScore cot csq ct, it.price with
    | some sc, some (some p) => some ⟨sc, it.title, it.link, p⟩
    | _, _ => none

/-- Specification-side eligibility and scoring of one raw tehnikapremium
item, without the seen set. -/
def tpHitFn (cot csq : String) (it : TPItem) : Option TPHit :=
  match it.titleElem, it.linkElem with
  | some title, some (some href) =>
    let fullLink := "https://tehnikapremium.ru" ++ href
    let article := match it.artElem with
      | some a => tpArticleText a
      | none => ""
    (match it.priceElem with
     | none => none
     | some ptxt =>
       match tpParsePrice ptxt with
       | none => none
       | some price =>
         let nt := remove_miele (normalize_text title)
         let na := normalize_text article
         match tpScore cot csq nt na with
         | none => none
         | some sc => some ⟨sc, title, fullLink, price, article⟩)
  | _, _ => none

/-- Keep the first element for every key, dropping later elements whose
key already occurred. -/
def dedupFirst (key : α → String) : List α → List α
  | [] => []
  | x :: xs => x :: dedupFirst key (xs.filter (fun y => !(key y == key x)))
termination_by l => l.length
decreasing_by
  simp only [List.length_cons]
  have := List.length_filter_le (fun y => !(key y == key x)) xs
  omega

/-- The common shape of one iteration of every candidate loop: compute
the optional accepted candidate of the item, skip if none or if its link
is already seen, otherwise append it to the seen set and the found list
together. -/
def genStep (f : α → Option β) (key : β → String)
    (st : List String × List β) (a : α) : List String × List β :=
  match f a with
  | none => st
  | some b => if key b ∈ st.1 then st else (st.1 ++ [key b], st.2 ++ [b])

/-- Folding the common loop shape accumulates exactly the first-per-link
eligible candidates that are not already in the initial seen set. -/
theorem foldl_genStep (f : α → Option β) (key : β → String) :
    ∀ (items : List α) (seen : List String) (acc : List β),
      (items.foldl (genStep f key) (seen, acc)).2 =
        acc ++ dedupFirst key
          ((items.filterMap f).filter (fun b => !(decide (key b ∈ seen)))) := by
  intro items
  induction items with
  | nil => intro seen acc; simp [dedupFirst]
  | cons a items ih =>
    intro seen acc
    simp only [List.foldl_cons, List.filterMap_cons]
    cases hfa : f a with
    | none => simp [genStep, hfa, ih]
    | some b =>
      by_cases hmem : key b ∈ seen
      · simp [genStep, hfa, hmem, ih]
      · simp only [genStep, hfa]
        rw [if_neg hmem, ih]
        have hfilter :
            (items.filterMap f).filter
                (fun y => !(decide (key y ∈ seen ++ [key b]))) =
              ((items.filterMap f).filter
                (fun y => !(decide (key y ∈ seen)))).filter
                (fun y => !(key y == key b)) := by
          rw [List.filter_filter]
          apply List.filter_congr
          intro x _
          by_cases h1 : key x = key b <;> by_cases h2 : key x ∈ seen <;>
            simp [h1, h2, List.mem_append]
        have hkb : (!decide (key b ∈ seen)) = true := by simp [hmem]
        simp only [List.filter_cons, hkb, if_true]
        rw [hfilter, dedupFirst]
        simp

/-- The literal mieles loop iteration agrees with the common loop shape
applied to the specification-side candidate function. -/
theorem mielesStep_eq_gen (cot csq : String) (st : List String × List MielesHit)
    (it : MielesItem) :
    mielesStep cot csq st it = genStep (mielesHitFn cot csq) MielesHit.link st it := by
  simp only [mielesStep, genStep, mielesHitFn]
  by_cases h1 : (it.title == "" || it.link == "" || it.price == none) = true
  · simp [h1]
  · simp only [h1, if_false, Bool.false_eq_true]
    cases hsc : mielesScore cot csq (remove_miele (normalize_text it.title)) with
    | none =>
      cases hp : it.price with
      | none => simp
      | some po => cases po <;> simp
    | some sc =>
      cases hp : it.price with
      | none => simp
      | some po =>
        cases po with
        | none => simp
        | some p => by_cases hmem : it.link ∈ st.1 <;> simp [hmem]

/-- The literal tehnikapremium loop iteration agrees with the common loop
shape applied to the specification-side candidate function. -/
theorem tpStep_eq_gen (cot csq : String) (st : List String × List TPHit)
    (it : TPItem) :
    tpStep cot csq st it = genStep (tpHitFn cot csq) TPHit.link st it := by
  simp only [tpStep, genStep, tpHitFn]
  cases ht : it.titleElem with
  | none => cases it.linkElem <;> simp
  | some title =>
    cases hl : it.linkElem with
    | none => simp
    | some hrefOpt =>
      cases hrefOpt with
      | none => simp
      | some href =>
        cases hpe : it.priceElem with
        | none => by_cases hmem : ("https://tehnikapremium.ru" ++ href) ∈ st.1 <;>
            simp [hmem]
        | some ptxt =>
          cases hpp : tpParsePrice ptxt with
          | none => by_cases hmem : ("https://tehnikapremium.ru" ++ href) ∈ st.1 <;>
              simp [hmem, hpp]
          | some price =>
            cases hsc : tpScore cot csq
                (remove_miele (normalize_text title))
                (normalize_text (match it.artElem with
                  | some a => tpArticleText a
                  | none => "")) with
            | none => by_cases hmem : ("https://tehnikapremium.ru" ++ href) ∈ st.1 <;>
                simp [hmem, hpp, hsc]
            | some sc => by_cases hmem : ("https://tehnikapremium.ru" ++ href) ∈ st.1 <;>
                simp [hmem, hpp, hsc]

/-- Folding a list with two pointwise equal step functions gives the same
result. -/
theorem foldl_congr_fn {f g : γ → α → γ} (h : ∀ st a, f st a = g st a) :
    ∀ (l : List α) (init : γ), l.foldl f init = l.foldl g init := by
  intro l
  induction l with
  | nil => intro init; rfl
  | cons a l ih => intro init; rw [List.foldl_cons, List.foldl_cons, h, ih]

/-- The found list of parse_mieles is exactly the first-per-link
deduplication of the eligible scored candidates. -/
theorem mieles_found_eq (cot csq : String) (items : List MielesItem) :
    (items.foldl (mielesStep cot csq) ([], [])).2 =
      dedupFirst MielesHit.link (items.filterMap (mielesHitFn cot csq)) := by
  rw [foldl_congr_fn (mielesStep_eq_gen cot csq) items ([], []),
    foldl_genStep (mielesHitFn cot csq) MielesHit.link items [] []]
  simp

/-- The found list of parse_tehnikapremium is exactly the first-per-link
deduplication of the eligible scored candidates. -/
theorem tp_found_eq (cot csq : String) (items : List TPItem) :
    (items.foldl (tpStep cot csq) ([], [])).2 =
      dedupFirst TPHit.link (items.filterMap (tpHitFn cot csq)) := by
  rw [foldl_congr_fn (tpStep_eq_gen cot csq) items ([], []),
    foldl_genStep (tpHitFn cot csq) TPHit.link items [] []]
  simp

/-- Elements of the first-per-key deduplication come from the input
list. -/
theorem dedupFirst_subset_aux {α : Type} {key : α → String} :
    ∀ (n : Nat) (L : List α), L.length ≤ n → ∀ b ∈ dedupFirst key L, b ∈ L := by
  intro n
  induction n with
  | zero =>
    intro L hL b hb
    cases L with
    | nil => simp [dedupFirst] at hb
    | cons x xs => simp at hL
  | succ n ih =>
    intro L hL b hb
    cases L with
    | nil => simp [dedupFirst] at hb
    | cons x xs =>
      simp only [dedupFirst, List.mem_cons] at hb
      rcases hb with rfl | hb
      · exact List.mem_cons_self _ _
      · have hlen : (xs.filter (fun y => !(key y == key x))).length ≤ n := by
          have := List.length_filter_le (fun y => !(key y == key x)) xs
          simp only [List.length_cons] at hL
          omega
        have hmem := ih _ hlen b hb
        exact List.mem_cons_of_mem _ (List.mem_filter.1 hmem).1

/-- Elements of the first-per-key deduplication come from the input
list. -/
theorem dedupFirst_subset {α : Type} {key : α → String} (L : List α) (b : α)
    (hb : b ∈ dedupFirst key L) : b ∈ L :=
  dedupFirst_subset_aux L.length L le_rfl b hb

/-- Keys are pairwise distinct after first-per-key deduplication. -/
theorem dedupFirst_pairwise_aux {α : Type} {key : α → String} :
    ∀ (n : Nat) (L : List α), L.length ≤ n →
      (dedupFirst key L).Pairwise (fun a b => key a ≠ key b) := by
  intro n
  induction n with
  | zero =>
    intro L hL
    cases L with
    | nil => simp [dedupFirst]
    | cons x xs => simp at hL
  | succ n ih =>
    intro L hL
    cases L with
    | nil => simp [dedupFirst]
    | cons x xs =>
      simp only [dedupFirst]
      have hlen : (xs.filter (fun y => !(key y == key x))).length ≤ n := by
        have := List.length_filter_le (fun y => !(key y == key x)) xs
        simp only [List.length_cons] at hL
        omega
      refine List.Pairwise.cons ?_ (ih _ hlen)
      intro b hb
      have hmem := dedupFirst_subset _ b hb
      have := (List.mem_filter.1 hmem).2
      simp only [Bool.not_eq_true', beq_eq_false_iff_ne, ne_eq] at this
      exact fun hxb => this (hxb ▸ rfl)

/-- Keys are pairwise distinct after first-per-key deduplication. -/
theorem dedupFirst_pairwise {α : Type} {key : α → String} (L : List α) :
    (dedupFirst key L).Pairwise (fun a b => key a ≠ key b) :=
  dedupFirst_pairwise_aux L.length L le_rfl

/-- Filtering with a stronger predicate first does not change a filter
with a predicate it implies. -/
theorem filter_filter_of_imp {α : Type} {p q : α → Bool}
    (h : ∀ y, p y = true → q y = true) (l : List α) :
    (l.filter q).filter p = l.filter p := by
  rw [List.filter_filter]
  apply List.filter_congr
  intro x _
  by_cases hp : p x = true
  · simp [hp, h x hp]
  · simp only [Bool.not_eq_true] at hp
    simp [hp]

/-- Every element surviving first-per-key deduplication is the first
element of the input list bearing its key. -/
theorem dedupFirst_head_aux {α : Type} {key : α → String} :
    ∀ (n : Nat) (L : List α), L.length ≤ n → ∀ b ∈ dedupFirst key L,
      (L.filter (fun y => key y == key b)).head? = some b := by
  intro n
  induction n with
  | zero =>
    intro L hL b hb
    cases L with
    | nil => simp [dedupFirst] at hb
    | cons x xs => simp at hL
  | succ n ih =>
    intro L hL b hb
    cases L with
    | nil => simp [dedupFirst] at hb
    | cons x xs =>
      simp only [dedupFirst, List.mem_cons] at hb
      have hlen : (xs.filter (fun y => !(key y == key x))).length ≤ n := by
        have := List.length_filter_le (fun y => !(key y == key x)) xs
        simp only [List.length_cons] at hL
        omega
      rcases hb with rfl | hb
      · simp [List.filter_cons]
      · have hne : key b ≠ key x := by
          have hmem := dedupFirst_subset _ b hb
          have := (List.mem_filter.1 hmem).2
          simpa using this
        have hrec := ih _ hlen b hb
        have himp : ∀ y, (key y == key b) = true → (!(key y == key x)) = true := by
          intro y hy
          simp only [beq_iff_eq] at hy
          simp only [Bool.not_eq_true', beq_eq_false_iff_ne, ne_eq]
          exact fun hc => hne (hy ▸ hc)
        rw [filter_filter_of_imp himp] at hrec
        rw [List.filter_cons]
        have hx : (key x == key b) = false := by
          simp only [beq_eq_false_iff_ne, ne_eq]
          exact fun hc => hne (hc ▸ rfl)
        simp only [hx, Bool.false_eq_true, if_false]
        exact hrec

/-- Every element surviving first-per-key deduplication is the first
element of the input list bearing its key. -/
theorem dedupFirst_head {α : Type} {key : α → String} (L : List α) (b : α)
    (hb : b ∈ dedupFirst key L) :
    (L.filter (fun y => key y == key b)).head? = some b :=
  dedupFirst_head_aux L.length L le_rfl b hb

/-- Insertion sort by score is sorted (pairwise non-decreasing scores). -/
theorem sortByScore_sorted {α : Type} (key : α → ℚ) (l : List α) :
    (sortByScore key l).Pairwise (fun a b => key a ≤ key b) := by
  letI : IsTotal α (fun a b => key a ≤ key b) :=
    ⟨fun a b => le_total (key a) (key b)⟩
  letI : IsTrans α (fun a b => key a ≤ key b) :=
    ⟨fun _ _ _ hab hbc => le_trans hab hbc⟩
  exact List.sorted_insertionSort _ l

/-- Insertion sort by score is a permutation of its input. -/
theorem sortByScore_perm {α : Type} (key : α → ℚ) (l : List α) :
    List.Perm (sortByScore key l) l :=
  List.perm_insertionSort _ l

/-- Claim C1, counterexample.  The claim states one tier table for the
relevance score of both cited scorers, with floor 1 for an exact match of
the cleaned title against the cleaned primary query.  The mieles scorer
uses shifted floors: on a candidate with cleaned title x, cleaned primary
query x, cleaned fallback query x and no article, parse_mieles scores
0 + 0.01 (its exact-primary tier has floor 0), while the claimed table
gives minimum matching floor 1, hence 1 + 0.01. -/
theorem C1_cx :
    mielesScore "x" "x" "x" = some (mkRat 1 100) ∧
    (specLadderTP "x" "x" "x" "").map (fun f => radd f (mkRat ("x".length : Int) 100)) =
      some (mkRat 101 100) ∧
    mielesScore "x" "x" "x" ≠
      (specLadderTP "x" "x" "x" "").map (fun f => radd f (mkRat ("x".length : Int) 100)) := by
  decide

/-- Claim C1 (amended): the tehnikapremium relevance score follows the
stated eight-tier table exactly: the tier floor is the minimum floor over
all matching tiers (article = fallback 0, article = primary 0.5, title =
primary 1, title = fallback 2, primary substring 3, fallback substring 4,
all primary tokens 5, all fallback tokens 6), a tier being evaluated only
when its reference query is non-empty, plus 0.01 times the length of the
cleaned candidate title, with the none sentinel exactly when no tier
matches.  The mieles scorer follows the same minimum-over-matching-tiers
scheme but with no article tiers and floors 0 to 5 (title = primary 0,
title = fallback 1, primary substring 2, fallback substring 3, all
primary tokens 4, all fallback tokens 5). -/
theorem C1_thm :
    (∀ cot csq nt na, tpFloor cot csq nt na = specLadderTP cot csq nt na) ∧
    (∀ cot csq nt na, tpScore cot csq nt na =
      (specLadderTP cot csq nt na).map (fun f => f + mkRat nt.length 100)) ∧
    (∀ cot csq ct, mielesFloor cot csq ct = specLadderMieles cot csq ct) ∧
    (∀ cot csq ct, mielesScore cot csq ct =
      (specLadderMieles cot csq ct).map (fun f => f + mkRat ct.length 100)) := by
  refine ⟨fun cot csq nt na => ?_, fun cot csq nt na => ?_,
    fun cot csq ct => ?_, fun cot csq ct => ?_⟩
  · exact tpFloorB_eq_minTiers _ _ _ _ _ _ _ _
  · unfold tpScore
    have h1 : tpFloor cot csq nt na = specLadderTP cot csq nt na :=
      tpFloorB_eq_minTiers _ _ _ _ _ _ _ _
    rw [h1]
    cases specLadderTP cot csq nt na <;> simp [radd_eq_add]
  · exact mielesFloorB_eq_minTiers _ _ _ _ _ _
  · unfold mielesScore
    have h1 : mielesFloor cot csq ct = specLadderMieles cot csq ct :=
      mielesFloorB_eq_minTiers _ _ _ _ _ _
    rw [h1]
    cases specLadderMieles cot csq ct <;> simp [radd_eq_add]

/-- Claim C2: select returns exactly the first-per-link non-duplicate
candidates that have a parsed numeric price and a finite (non-sentinel)
score, stable-sorted ascending by score and truncated to the first three;
a candidate matching no tier is excluded by the candidate functions
(which return none on the sentinel) even when its price is valid; on any
input the result is a plain list, never an error, and empty when nothing
survives.  Stated for both cited scrapers, together with the length bound
and sortedness of the output. -/
theorem C2_thm :
    (∀ cot csq items, parse_mieles_select cot csq items =
      ((sortByScore MielesHit.score (dedupFirst MielesHit.link
          (items.filterMap (mielesHitFn cot csq)))).take 3).map mielesResultOf) ∧
    (∀ cot csq items, parse_tehnikapremium_select cot csq items =
      (sortByScore TPHit.score (dedupFirst TPHit.link
          (items.filterMap (tpHitFn cot csq)))).take 3) ∧
    (∀ (cot csq : String) (items : List MielesItem),
      (parse_mieles_select cot csq items).length ≤ 3) ∧
    (∀ (cot csq : String) (items : List TPItem),
      (parse_tehnikapremium_select cot csq items).length ≤ 3) ∧
    (∀ cot csq items, (parse_tehnikapremium_select cot csq items).Pairwise
      (fun a b => a.score ≤ b.score)) := by
  refine ⟨fun cot csq items => ?_, fun cot csq items => ?_,
    fun cot csq items => ?_, fun cot csq items => ?_, fun cot csq items => ?_⟩
  · unfold parse_mieles_select
    rw [mieles_found_eq]
  · unfold parse_tehnikapremium_select
    rw [tp_found_eq]
  · simp only [parse_mieles_select, List.length_map, List.length_take]
    omega
  · simp only [parse_tehnikapremium_select, List.length_take]
    omega
  · exact List.Pairwise.sublist (List.take_sublist 3 _) (sortByScore_sorted _ _)

/-- Claim C3, counterexample.  The claim states that when two candidates
share a link, the entry kept is the first encountered.  In the code a
link enters the seen set only when a candidate is accepted, so when the
first candidate with a link fails scoring, the second candidate with the
same link is kept: with cleaned queries abc, the first candidate (title
zzz, link L) matches no tier and the output entry for link L is the
second candidate (title abc), not the first encountered. -/
theorem C3_cx :
    parse_mieles_select "abc" "abc"
      [⟨"zzz", "L", some (some 5)⟩, ⟨"abc", "L", some (some 5)⟩] =
      [⟨"abc", "L", 5⟩] ∧
    ("abc" : String) ≠ "zzz" := by
  decide

/-- Claim C3 (amended): candidates are processed in source order; a link
enters the seen set when a candidate is accepted (valid record, parsed
price, non-sentinel score), and any candidate whose link was already seen
is skipped.  Hence output links are pairwise distinct, and every output
entry is the first among the accepted-eligible candidates bearing its
link (not necessarily the first raw candidate with that link). -/
theorem C3_thm :
    (∀ cot csq items,
      (parse_tehnikapremium_select cot csq items).Pairwise
        (fun a b => a.link ≠ b.link) ∧
      ∀ h ∈ parse_tehnikapremium_select cot csq items,
        ((items.filterMap (tpHitFn cot csq)).filter
          (fun y => y.link == h.link)).head? = some h) ∧
    (∀ cot csq items,
      (parse_mieles_select cot csq items).Pairwise
        (fun a b => a.link ≠ b.link) ∧
      ∀ r ∈ parse_mieles_select cot csq items, ∃ h,
        ((items.filterMap (mielesHitFn cot csq)).filter
          (fun y => y.link == h.link)).head? = some h ∧ r = mielesResultOf h) := by
  constructor
  · intro cot csq items
    constructor
    · unfold parse_tehnikapremium_select
      rw [tp_found_eq]
      refine List.Pairwise.sublist (List.take_sublist 3 _) ?_
      have hperm := sortByScore_perm TPHit.score
        (dedupFirst TPHit.link (items.filterMap (tpHitFn cot csq)))
      exact ((hperm.pairwise_iff (fun h hc => h hc.symm)).2
        (dedupFirst_pairwise _))
    · intro h hmem
      unfold parse_tehnikapremium_select at hmem
      rw [tp_found_eq] at hmem
      have h1 : h ∈ sortByScore TPHit.score
          (dedupFirst TPHit.link (items.filterMap (tpHitFn cot csq))) :=
        List.take_subset 3 _ hmem
      have h2 : h ∈ dedupFirst TPHit.link (items.filterMap (tpHitFn cot csq)) :=
        (sortByScore_perm _ _).mem_iff.1 h1
      exact dedupFirst_head _ _ h2
  · intro cot csq items
    constructor
    · unfold parse_mieles_select
      rw [mieles_found_eq]
      have hp : ((sortByScore MielesHit.score (dedupFirst MielesHit.link
          (items.filterMap (mielesHitFn cot csq)))).take 3).Pairwise
          (fun a b => a.link ≠ b.link) := by
        refine List.Pairwise.sublist (List.take_sublist 3 _) ?_
        have hperm := sortByScore_perm MielesHit.score
          (dedupFirst MielesHit.link (items.filterMap (mielesHitFn cot csq)))
        exact ((hperm.pairwise_iff (fun h hc => h hc.symm)).2
          (dedupFirst_pairwise _))
      exact List.Pairwise.map _ (fun a b hab => hab) hp
    · intro r hmem
      unfold parse_mieles_select at hmem
      rw [mieles_found_eq] at hmem
      obtain ⟨h, hh, rfl⟩ := List.mem_map.1 hmem
      have h1 : h ∈ sortByScore MielesHit.score
          (dedupFirst MielesHit.link (items.filterMap (mielesHitFn cot csq))) :=
        List.take_subset 3 _ hh
      have h2 : h ∈ dedupFirst MielesHit.link (items.filterMap (mielesHitFn cot csq)) :=
        (sortByScore_perm _ _).mem_iff.1 h1
      exact ⟨h, dedupFirst_head _ _ h2, rfl⟩

/-- A competitor result item as consumed by the merge loop of main.py
(dict with title, link and optional numeric price). -/
structure CompItem where
  title : String
  link : String
  price : Option ℚ
deriving DecidableEq

/-- The outcome of one competitor branch of asyncio.gather with
return_exceptions=True: either the exception (represented by its class
name, the only part the merge loop uses) or the returned result list. -/
inductive FanOutcome where
  | raised (excName : String)
  | ok (items : List CompItem)
deriving DecidableEq

/-- One competitor entry of the aggregate report built by main.py lines
161-182: an error line carrying the exception class name, a not-found
line, or a populated block with the result items. -/
inductive ReportEntry where
  | errorEntry (site : String) (excName : String)
  | notFound (site : String)
  | populated (site : String) (items : List CompItem)
deriving DecidableEq

/-- The classification of one branch by the merge loop: isinstance
Exception first, then the truthiness test on the result list. -/
def reportEntryFor (site : String) (r : FanOutcome) : ReportEntry :=
  match r with
  | .raised e => .errorEntry site e
  | .ok items => if items.isEmpty then .notFound site else .populated site items

/-- The fixed competitor site names of main.py. -/
def competitorSites : List String := ["Mieles.ru", "Hausdorf.ru", "Miele-Unique.ru"]

/-- The merge loop of main.py lines 161-182: one entry per competitor
site, classified per branch. -/
def mergeCompetitors (outcomes : List FanOutcome) : List ReportEntry :=
  (competitorSites.zip outcomes).map (fun p => reportEntryFor p.1 p.2)

/-- Claim C4: for every vector of per-branch outcomes the merged
aggregate report contains exactly one entry per competitor site: an error
entry carrying the failure class name for a raising branch, a not-found
entry for an empty branch, and a populated entry for a successful
non-empty branch; the merge is a total function of the outcome vector, so
the request never fails because one branch raised. -/
theorem C4_thm (o1 o2 o3 : FanOutcome) :
    (mergeCompetitors [o1, o2, o3]).length = 3 ∧
    mergeCompetitors [o1, o2, o3] =
      [reportEntryFor "Mieles.ru" o1, reportEntryFor "Hausdorf.ru" o2,
       reportEntryFor "Miele-Unique.ru" o3] ∧
    (∀ site exc, reportEntryFor site (.raised exc) = .errorEntry site exc) ∧
    (∀ site, reportEntryFor site (.ok []) = .notFound site) ∧
    (∀ site x xs, reportEntryFor site (.ok (x :: xs)) =
      .populated site (x :: xs)) := by
  refine ⟨rfl, rfl, fun site exc => rfl, fun site => rfl, fun site x xs => ?_⟩
  simp [reportEntryFor]

/-- A product entry of the tehnikapremium result list as cached by
main.py; the synthetic fallback record carries the normalized query as
title, empty link and article, and no numeric price. -/
structure TPEntry where
  title : String
  link : String
  article : String
  price : Option ℚ
deriving DecidableEq

/-- The process-wide mutable state of main.py: the cache dictionary and
the date recorded at the last cache clear (none before initialisation). -/
structure BotState where
  cache : List (String × List TPEntry)
  lastClearDate : Option Nat
deriving DecidableEq

/-- The visible outcome of one handled request: rejected as too short, or
served with a primary product and a flag recording whether the primary
source was fetched (false when the cache entry was used). -/
inductive HandleOutcome where
  | tooShort
  | served (primary : TPEntry) (fetchedPrimary : Bool)
deriving DecidableEq

/-- Dictionary update cache[key] = results. -/
def insertCache (k : String) (v : List TPEntry)
    (m : List (String × List TPEntry)) : List (String × List TPEntry) :=
  (k, v) :: m.filter (fun p => !(p.1 == k))

/-- main.py handle_product_request, lines 86-123, for a request that
passed the subscription check: clear the whole cache when the local date
has advanced past the recorded clear date (or none is recorded); reject
stripped queries shorter than 3 characters; use the first element of a
non-empty same-day cache entry under the normalized query key without
fetching; otherwise fetch (the oracle argument fetchResult is what the
primary source would return), fall back to a synthetic record carrying
the normalized query when the fetch is empty, serve the first result and
store the list in the cache. -/
def handle_product_request (st : BotState) (today : Nat) (msgText : String)
    (fetchResult : List TPEntry) : HandleOutcome × BotState :=
  let doClear : Bool := match st.lastClearDate with
    | none => true
    | some d => decide (d < today)
  let st1 : BotState := if doClear then ⟨[], some today⟩ else st
  let userQuery := pyStripStr msgText
  if userQuery.length < 3 then (.tooShort, st1)
  else
    let key := normalize_text userQuery
    match st1.cache.lookup key with
    | some (e :: _) => (.served e false, st1)
    | _ =>
      let results := match fetchResult with
        | [] => [⟨key, "", "", none⟩]
        | r :: rest => r :: rest
      (.served (results.headD ⟨key, "", "", none⟩) true,
        ⟨insertCache key results st1.cache, st1.lastClearDate⟩)

/-- Claim C5: a request whose normalized query matches a non-empty
same-day cache entry is served that entry's first element without a
fetch and without touching the state; the first request handled after
the local date has advanced past the recorded clear date wholesale
clears the cache, so the same query triggers a fresh fetch and the
post-state cache holds only the new entry under the query key, with the
clear date advanced to today. -/
theorem C5_thm (st : BotState) (today : Nat) (msg : String)
    (fr : List TPEntry) :
    (∀ d e rest, st.lastClearDate = some d → ¬ d < today →
      3 ≤ (pyStripStr msg).length →
      st.cache.lookup (normalize_text (pyStripStr msg)) = some (e :: rest) →
      handle_product_request st today msg fr = (.served e false, st)) ∧
    (∀ d, st.lastClearDate = some d → d < today →
      3 ≤ (pyStripStr msg).length →
      handle_product_request st today msg fr =
        (.served ((match fr with
            | [] => [(⟨normalize_text (pyStripStr msg), "", "", none⟩ : TPEntry)]
            | r :: rest => r :: rest).headD
              ⟨normalize_text (pyStripStr msg), "", "", none⟩) true,
          ⟨[(normalize_text (pyStripStr msg),
             (match fr with
              | [] => [(⟨normalize_text (pyStripStr msg), "", "", none⟩ : TPEntry)]
              | r :: rest => r :: rest))],
           some today⟩)) := by
  constructor
  · intro d e rest hd hnd hlen hlook
    have h1 : (decide (d < today)) = false := by simpa using hnd
    have h2 : ¬ ((pyStripStr msg).length < 3) := by omega
    simp [handle_product_request, hd, h1, h2, hlook]
  · intro d hd hlt hlen
    have h1 : (decide (d < today)) = true := by simpa using hlt
    have h2 : ¬ ((pyStripStr msg).length < 3) := by omega
    cases fr with
    | nil => simp [handle_product_request, hd, h1, h2, List.lookup, insertCache]
    | cons r rest => simp [handle_product_request, hd, h1, h2, List.lookup, insertCache]

/-- Claim C5, witness: with a state whose cache holds sk140 and clear
date 10, a same-day request (day 10) for SK140 is served the cached
entry without a fetch and leaves the state unchanged; the first request
on day 11 is served from a fresh fetch and the post-state holds only the
new entry, with clear date 11. -/
theorem C5_witness :
    handle_product_request
        ⟨[("sk140", [⟨"Miele SK140", "lnk", "sk", some 99⟩])], some 10⟩
        10 " SK140 " [⟨"New SK140", "lnk2", "sk2", some 88⟩] =
      (.served ⟨"Miele SK140", "lnk", "sk", some 99⟩ false,
        ⟨[("sk140", [⟨"Miele SK140", "lnk", "sk", some 99⟩])], some 10⟩) ∧
    handle_product_request
        ⟨[("sk140", [⟨"Miele SK140", "lnk", "sk", some 99⟩])], some 10⟩
        11 " SK140 " [⟨"New SK140", "lnk2", "sk2", some 88⟩] =
      (.served ⟨"New SK140", "lnk2", "sk2", some 88⟩ true,
        ⟨[("sk140", [⟨"New SK140", "lnk2", "sk2", some 88⟩])], some 11⟩) := by
  constructor
  · exact (C5_thm ⟨[("sk140", [⟨"Miele SK140", "lnk", "sk", some 99⟩])], some 10⟩
      10 " SK140 " [⟨"New SK140", "lnk2", "sk2", some 88⟩]).1
      10 ⟨"Miele SK140", "lnk", "sk", some 99⟩ [] rfl (by decide) (by decide)
      (by decide)
  · exact (C5_thm ⟨[("sk140", [⟨"Miele SK140", "lnk", "sk", some 99⟩])], some 10⟩
      11 " SK140 " [⟨"New SK140", "lnk2", "sk2", some 88⟩]).2
      10 rfl (by decide) (by decide)

/-- The query cleaning used by every scraper (for example
parse_mieles.py lines 77-78, parse_hausdorf.py lines 90-91): brand
stripping applied after normalization. -/
def clean_query (q : String) : String := remove_miele (normalize_text q)

/-- Candidate-title cleaning of parse_mieles.py line 97. -/
def mieles_clean_title (t : String) : String := remove_miele (normalize_text t)

/-- Candidate-title cleaning of parse_miele_unique.py line 91. -/
def miele_unique_clean_title (t : String) : String := remove_miele (normalize_text t)

/-- Candidate-title cleaning of parse_tehnikapremium.py line 109. -/
def tp_clean_title (t : String) : String := remove_miele (normalize_text t)

/-- Candidate-title cleaning of parse_hausdorf.py line 137: there the
brand token is stripped BEFORE normalization. -/
def hausdorf_clean_title (t : String) : String := normalize_text (remove_miele t)

/-- Claim C7, counterexample.  The claim states every scraper cleans
titles and queries as stripBrandToken after normalize.  parse_hausdorf
line 137 applies the two functions to candidate titles in the reverse
order, and the orders differ: on MIELE-X, normalizing first welds the
hyphenated word into mielex (no word boundary, nothing stripped), while
hausdorf strips MIELE (the hyphen is a boundary) and then normalizes,
leaving x. -/
theorem C7_cx :
    hausdorf_clean_title "MIELE-X" = "x" ∧
    remove_miele (normalize_text "MIELE-X") = "mielex" ∧
    hausdorf_clean_title "MIELE-X" ≠ remove_miele (normalize_text "MIELE-X") := by
  decide

/-- Claim C7 (amended): every scraper cleans queries, and mieles,
miele-unique and tehnikapremium clean candidate titles, as
stripBrandToken composed after normalize; parse_hausdorf cleans
candidate titles in the reverse order, normalize composed after
stripBrandToken. -/
theorem C7_thm (s : String) :
    clean_query s = remove_miele (normalize_text s) ∧
    mieles_clean_title s = remove_miele (normalize_text s) ∧
    miele_unique_clean_title s = remove_miele (normalize_text s) ∧
    tp_clean_title s = remove_miele (normalize_text s) ∧
    hausdorf_clean_title s = normalize_text (remove_miele s) :=
  ⟨rfl, rfl, rfl, rfl, rfl⟩

/-- Claim C9: integer price extraction is total and never raises: on
every input it deletes every non-digit character; when no digit remains
it returns none (int raises ValueError, caught), and when at least one
digit remains it returns the parsed integer value of the digit
subsequence. -/
theorem C9_thm (s : String) :
    (s.data.any Char.isDigit = false → extract_price_from_text s = none) ∧
    (s.data.any Char.isDigit = true →
      extract_price_from_text s =
        some (digitsToNat (s.data.filter Char.isDigit))) := by
  constructor
  · intro h
    have hnil : s.data.filter Char.isDigit = [] := by
      rw [List.filter_eq_nil_iff]
      intro a ha
      have := List.any_eq_false.1 h a ha
      simpa using this
    simp [extract_price_from_text, hnil]
  · intro h
    obtain ⟨a, ha, hda⟩ := List.any_eq_true.1 h
    have hne : s.data.filter Char.isDigit ≠ [] := by
      intro hc
      have := List.filter_eq_nil_iff.1 hc a ha
      simp [hda] at this
    have : (s.data.filter Char.isDigit).isEmpty = false := by
      simpa [List.isEmpty_iff] using hne
    simp [extract_price_from_text, this]

/-- Claim C9, witness: the documented example (12 345 руб gives 12345)
and a digit-free input (none, no exception). -/
theorem C9_witness :
    extract_price_from_text "12 345 руб." = some 12345 ∧
    extract_price_from_text "руб." = none := by
  constructor
  · exact (C9_thm "12 345 руб.").2 (by decide)
  · exact (C9_thm "руб.").1 (by decide)

/-- Unfolding of the tokenisation state on a cons. -/
theorem splitAux_cons (c : Char) (cs : List Char) :
    splitAux (c :: cs) = splitStep c (splitAux cs) := rfl

/-- The tokenisation flag is true exactly when the list starts with a
non-space character. -/
theorem splitAux_snd : ∀ (l : List Char),
    (splitAux l).2 = (match l with | [] => false | c :: _ => !pySpace c) := by
  intro l
  cases l with
  | nil => rfl
  | cons c cs =>
    rw [splitAux_cons]
    rcases h : splitAux cs with ⟨ts, b⟩
    by_cases hc : pySpace c = true
    · simp [splitStep, hc]
    · simp only [Bool.not_eq_true] at hc
      cases ts <;> cases b <;> simp [splitStep, hc]

/-- When the flag is set the token list is nonempty. -/
theorem splitAux_shape : ∀ (l : List Char), (splitAux l).2 = true →
    ∃ t ts, (splitAux l).1 = t :: ts := by
  intro l h
  cases l with
  | nil => simp [splitAux] at h
  | cons c cs =>
    rw [splitAux_cons] at h ⊢
    rcases hs : splitAux cs with ⟨ts, b⟩
    by_cases hc : pySpace c = true
    · simp [splitStep, hc] at h
    · simp only [Bool.not_eq_true] at hc
      cases ts <;> cases b <;> simp [splitStep, hc]

/-- A space character at the head contributes no token. -/
theorem wsTokens_cons_space (c : Char) (cs : List Char) (h : pySpace c = true) :
    wsTokens (c :: cs) = wsTokens cs := by
  unfold wsTokens
  rw [splitAux_cons]
  rcases hs : splitAux cs with ⟨ts, b⟩
  simp [splitStep, h]

/-- A non-space head before a space (or the end) opens a new token. -/
theorem wsTokens_cons_new (c : Char) (cs : List Char) (hc : pySpace c = false)
    (hcs : (splitAux cs).2 = false) :
    wsTokens (c :: cs) = [c] :: wsTokens cs := by
  unfold wsTokens
  rw [splitAux_cons]
  rcases hs : splitAux cs with ⟨ts, b⟩
  rw [hs] at hcs
  simp only at hcs
  subst hcs
  cases ts <;> simp [splitStep, hc]

/-- A non-space head before a token extends that token. -/
theorem wsTokens_cons_extend (c : Char) (cs : List Char) (hc : pySpace c = false)
    (hcs : (splitAux cs).2 = true) :
    ∃ t ts, wsTokens cs = t :: ts ∧ wsTokens (c :: cs) = (c :: t) :: ts := by
  obtain ⟨t, ts, hts⟩ := splitAux_shape cs hcs
  refine ⟨t, ts, hts, ?_⟩
  unfold wsTokens
  rw [splitAux_cons]
  rcases hs : splitAux cs with ⟨ts', b⟩
  rw [hs] at hcs hts
  simp only at hcs hts
  subst hcs
  subst hts
  simp [splitStep, hc]

/-- Folding the tokenisation over a list with an arbitrary token list and
a cleared flag appends the tokens of the list in front. -/
theorem splitAux_general : ∀ (a : List Char) (ts : List (List Char)),
    a.foldr splitStep (ts, false) = (wsTokens a ++ ts, (splitAux a).2) := by
  intro a
  induction a with
  | nil => intro ts; simp [wsTokens, splitAux]
  | cons c a ih =>
    intro ts
    rw [List.foldr_cons, ih ts]
    by_cases hc : pySpace c = true
    · rw [wsTokens_cons_space c a hc, splitAux_snd (c :: a)]
      simp [splitStep, hc]
    · simp only [Bool.not_eq_true] at hc
      rcases h2 : (splitAux a).2 with _ | _
      · rw [wsTokens_cons_new c a hc h2]
        have hflag : (splitAux (c :: a)).2 = true := by
          rw [splitAux_snd]; simp [hc]
        rw [hflag]
        rcases hw : wsTokens a with _ | ⟨t, ts'⟩ <;>
          simp [splitStep, hc, hw]
      · obtain ⟨t, ts', hts, hcons⟩ := wsTokens_cons_extend c a hc h2
        rw [hcons, hts]
        have hflag : (splitAux (c :: a)).2 = true := by
          rw [splitAux_snd]; simp [hc]
        rw [hflag]
        simp [splitStep, hc]

/-- Joining a single token is the token. -/
theorem joinTokens_single (t : List Char) : joinTokens [t] = t := by
  simp [joinTokens, List.intercalate]

/-- Joining two or more tokens starts with the first token and a space. -/
theorem joinTokens_cons2 (t u : List Char) (rest : List (List Char)) :
    joinTokens (t :: u :: rest) = t ++ ' ' :: joinTokens (u :: rest) := by
  simp [joinTokens, List.intercalate, List.intersperse]

/-- Tokens distribute over a separating space. -/
theorem wsTokens_append_space (a b : List Char) :
    wsTokens (a ++ ' ' :: b) = wsTokens a ++ wsTokens b := by
  have hinit : splitAux (' ' :: b) = (wsTokens b, false) := by
    rw [splitAux_cons]
    rcases hs : splitAux b with ⟨ts, fl⟩
    have hsp : pySpace ' ' = true := rfl
    simp [splitStep, hsp, wsTokens, hs]
  have hsplit : splitAux (a ++ ' ' :: b) = a.foldr splitStep (splitAux (' ' :: b)) := by
    unfold splitAux
    rw [List.foldr_append]
  unfold wsTokens
  rw [hsplit, hinit, splitAux_general a (wsTokens b)]
  rfl

/-- A nonempty all-non-space list is its own single token. -/
theorem wsTokens_single : ∀ (t : List Char), t ≠ [] →
    (∀ c ∈ t, pySpace c = false) → wsTokens t = [t] := by
  intro t
  induction t with
  | nil => intro h; exact absurd rfl h
  | cons c cs ih =>
    intro _ hall
    have hc : pySpace c = false := hall c (List.mem_cons_self _ _)
    cases cs with
    | nil =>
      rw [wsTokens_cons_new c [] hc rfl]
      rfl
    | cons d ds =>
      have hd : pySpace d = false := hall d (by simp)
      have hflag : (splitAux (d :: ds)).2 = true := by
        rw [splitAux_snd]; simp [hd]
      obtain ⟨t', ts', hts, hcons⟩ := wsTokens_cons_extend c (d :: ds) hc hflag
      have hrec : wsTokens (d :: ds) = [d :: ds] := by
        apply ih (by simp)
        intro x hx
        exact hall x (List.mem_cons_of_mem _ hx)
      rw [hrec] at hts
      injection hts with h1 h2
      rw [hcons, h1, h2]

/-- Tokens of a join of good tokens are the tokens themselves. -/
theorem wsTokens_joinTokens : ∀ (ts : List (List Char)),
    (∀ t ∈ ts, t ≠ [] ∧ ∀ c ∈ t, pySpace c = false) →
    wsTokens (joinTokens ts) = ts := by
  intro ts
  induction ts with
  | nil => intro _; rfl
  | cons t rest ih =>
    intro h
    cases rest with
    | nil =>
      rw [joinTokens_single]
      exact wsTokens_single t (h t (by simp)).1 (h t (by simp)).2
    | cons t2 rest2 =>
      rw [joinTokens_cons2, wsTokens_append_space,
        wsTokens_single t (h t (by simp)).1 (h t (by simp)).2,
        ih (fun x hx => h x (List.mem_cons_of_mem _ hx))]
      rfl

/-- Every token is nonempty and consists of non-space characters of the
source list. -/
theorem wsTokens_good : ∀ (l : List Char), ∀ t ∈ wsTokens l,
    t ≠ [] ∧ ∀ c ∈ t, pySpace c = false ∧ c ∈ l := by
  intro l
  induction l with
  | nil => intro t ht; simp [wsTokens, splitAux] at ht
  | cons c cs ih =>
    intro t ht
    by_cases hc : pySpace c = true
    · rw [wsTokens_cons_space c cs hc] at ht
      obtain ⟨h1, h2⟩ := ih t ht
      exact ⟨h1, fun x hx => ⟨(h2 x hx).1, List.mem_cons_of_mem _ (h2 x hx).2⟩⟩
    · simp only [Bool.not_eq_true] at hc
      rcases hflag : (splitAux cs).2 with _ | _
      · rw [wsTokens_cons_new c cs hc hflag] at ht
        rcases List.mem_cons.1 ht with rfl | ht2
        · refine ⟨by simp, ?_⟩
          intro x hx
          rcases List.mem_singleton.1 hx with rfl
          exact ⟨hc, List.mem_cons_self _ _⟩
        · obtain ⟨h1, h2⟩ := ih t ht2
          exact ⟨h1, fun x hx => ⟨(h2 x hx).1, List.mem_cons_of_mem _ (h2 x hx).2⟩⟩
      · obtain ⟨t', ts', hts, hcons⟩ := wsTokens_cons_extend c cs hc hflag
        rw [hcons] at ht
        rcases List.mem_cons.1 ht with rfl | ht2
        · obtain ⟨h1, h2⟩ := ih t' (hts ▸ List.mem_cons_self _ _)
          refine ⟨by simp, ?_⟩
          intro x hx
          rcases List.mem_cons.1 hx with rfl | hx2
          · exact ⟨hc, List.mem_cons_self _ _⟩
          · exact ⟨(h2 x hx2).1, List.mem_cons_of_mem _ (h2 x hx2).2⟩
        · obtain ⟨h1, h2⟩ := ih t (hts ▸ List.mem_cons_of_mem _ ht2)
          exact ⟨h1, fun x hx => ⟨(h2 x hx).1, List.mem_cons_of_mem _ (h2 x hx).2⟩⟩

/-- A join of good tokens starts with a non-space character. -/
theorem joinTokens_head : ∀ (ts : List (List Char)),
    (∀ t ∈ ts, t ≠ [] ∧ ∀ c ∈ t, pySpace c = false) → ts ≠ [] →
    ∃ c rest, joinTokens ts = c :: rest ∧ pySpace c = false := by
  intro ts h hne
  cases ts with
  | nil => exact absurd rfl hne
  | cons t rest =>
    obtain ⟨h1, h2⟩ := h t (List.mem_cons_self _ _)
    cases t with
    | nil => exact absurd rfl h1
    | cons c t0 =>
      cases rest with
      | nil =>
        exact ⟨c, t0, joinTokens_single _, h2 c (List.mem_cons_self _ _)⟩
      | cons t2 rest2 =>
        refine ⟨c, t0 ++ ' ' :: joinTokens (t2 :: rest2), ?_,
          h2 c (List.mem_cons_self _ _)⟩
        rw [joinTokens_cons2]
        rfl

/-- A join of good tokens ends with a non-space character (stated on the
reverse). -/
theorem joinTokens_rev_head : ∀ (ts : List (List Char)),
    (∀ t ∈ ts, t ≠ [] ∧ ∀ c ∈ t, pySpace c = false) → ts ≠ [] →
    ∃ c rest, (joinTokens ts).reverse = c :: rest ∧ pySpace c = false := by
  intro ts
  induction ts with
  | nil => intro _ hne; exact absurd rfl hne
  | cons t rest ih =>
    intro h _
    cases rest with
    | nil =>
      obtain ⟨h1, h2⟩ := h t (List.mem_cons_self _ _)
      rcases hr : t.reverse with _ | ⟨c, r0⟩
      · exact absurd (by simpa using congrArg List.reverse hr) h1
      · have hc : c ∈ t := by
          have : c ∈ t.reverse := hr ▸ List.mem_cons_self _ _
          simpa using this
        exact ⟨c, r0, by rw [joinTokens_single, hr], h2 c hc⟩
    | cons t2 rest2 =>
      obtain ⟨c, r0, hrev, hc⟩ := ih
        (fun x hx => h x (List.mem_cons_of_mem _ hx)) (by simp)
      refine ⟨c, r0 ++ (' ' :: t.reverse), ?_, hc⟩
      rw [joinTokens_cons2, List.reverse_append, List.reverse_cons, hrev]
      simp

/-- A character of a join is a space or a character of some token. -/
theorem mem_joinTokens : ∀ (ts : List (List Char)) (c : Char),
    c ∈ joinTokens ts → c = ' ' ∨ ∃ t ∈ ts, c ∈ t := by
  intro ts
  induction ts with
  | nil => intro c hc; simp [joinTokens, List.intercalate] at hc
  | cons t rest ih =>
    intro c hc
    cases rest with
    | nil =>
      rw [joinTokens_single] at hc
      exact Or.inr ⟨t, List.mem_cons_self _ _, hc⟩
    | cons t2 rest2 =>
      rw [joinTokens_cons2] at hc
      rcases List.mem_append.1 hc with h1 | h2
      · exact Or.inr ⟨t, List.mem_cons_self _ _, h1⟩
      · rcases List.mem_cons.1 h2 with rfl | h3
        · exact Or.inl rfl
        · rcases ih c h3 with h4 | ⟨u, hu, hcu⟩
          · exact Or.inl h4
          · exact Or.inr ⟨u, List.mem_cons_of_mem _ hu, hcu⟩

/-- Stripping removes optional single-space markers around a list that
starts and ends with non-space characters. -/
theorem pyStrip_sandwich (J lead trail : List Char)
    (hl : lead = [] ∨ lead = [' ']) (ht : trail = [] ∨ trail = [' '])
    (hhead : ∃ c rest, J = c :: rest ∧ pySpace c = false)
    (hlast : ∃ c rest, J.reverse = c :: rest ∧ pySpace c = false) :
    pyStrip (lead ++ J ++ trail) = J := by
  obtain ⟨c, rest, hJ, hc⟩ := hhead
  obtain ⟨d, rrest, hrev, hd⟩ := hlast
  have hsp : pySpace ' ' = true := rfl
  have hJt : (J ++ trail).dropWhile pySpace = J ++ trail := by
    rw [hJ, List.cons_append, List.dropWhile_cons]
    simp [hc]
  have hfront : (lead ++ J ++ trail).dropWhile pySpace = J ++ trail := by
    rw [List.append_assoc]
    rcases hl with rfl | rfl
    · rw [List.nil_append]; exact hJt
    · rw [List.singleton_append, List.dropWhile_cons]
      simp only [hsp, if_true]
      exact hJt
  have hback : ((J ++ trail).reverse).dropWhile pySpace = J.reverse := by
    rcases ht with rfl | rfl
    · rw [List.append_nil, hrev, List.dropWhile_cons]
      simp [hd, ← hrev]
    · rw [List.reverse_append]
      simp only [List.reverse_cons, List.reverse_nil, List.nil_append,
        List.singleton_append]
      rw [List.dropWhile_cons]
      simp only [hsp, if_true]
      rw [hrev, List.dropWhile_cons]
      simp [hd, ← hrev]
  unfold pyStrip
  rw [hfront, hback, List.reverse_reverse]

/-- A list without tokens is all whitespace. -/
theorem wsTokens_nil_allspace : ∀ (l : List Char), wsTokens l = [] →
    ∀ x ∈ l, pySpace x = true := by
  intro l
  induction l with
  | nil => intro _ x hx; simp at hx
  | cons c cs ih =>
    intro h x hx
    by_cases hc : pySpace c = true
    · rw [wsTokens_cons_space c cs hc] at h
      rcases List.mem_cons.1 hx with rfl | hx2
      · exact hc
      · exact ih h x hx2
    · simp only [Bool.not_eq_true] at hc
      exfalso
      rcases hflag : (splitAux cs).2 with _ | _
      · rw [wsTokens_cons_new c cs hc hflag] at h
        simp at h
      · obtain ⟨t, ts, _, hcons⟩ := wsTokens_cons_extend c cs hc hflag
        rw [hcons] at h
        simp at h

/-- The single-space marker left in front of a collapsed list whose
source starts with whitespace. -/
def leadMark (l : List Char) : List Char :=
  match l with
  | [] => []
  | c :: _ => if pySpace c then [' '] else []

/-- The single-space marker left at the end of a collapsed list whose
source ends with whitespace after its last token. -/
def trailMark (l : List Char) : List Char :=
  match l.getLast? with
  | none => []
  | some c => if pySpace c && !(wsTokens l).isEmpty then [' '] else []

/-- Unfolding collapse on a whitespace head with pending run. -/
theorem collapse_cons_space_false (c : Char) (cs : List Char)
    (h : pySpace c = true) :
    collapseWsAux (c :: cs) false = ' ' :: collapseWsAux cs true := by
  simp [collapseWsAux, h]

/-- Unfolding collapse on a whitespace head inside a run. -/
theorem collapse_cons_space_true (c : Char) (cs : List Char)
    (h : pySpace c = true) :
    collapseWsAux (c :: cs) true = collapseWsAux cs true := by
  simp [collapseWsAux, h]

/-- Unfolding collapse on a non-space head. -/
theorem collapse_cons_nonspace (c : Char) (cs : List Char)
    (h : pySpace c = false) (b : Bool) :
    collapseWsAux (c :: cs) b = c :: collapseWsAux cs false := by
  simp [collapseWsAux, h]

/-- The whitespace-collapsing scan, in both flag states, equals the
space-joined tokens of the source framed by the lead and trail
markers. -/
theorem collapse_join : ∀ (l : List Char),
    collapseWsAux l false = leadMark l ++ joinTokens (wsTokens l) ++ trailMark l ∧
    collapseWsAux l true = joinTokens (wsTokens l) ++ trailMark l := by
  intro l
  induction l with
  | nil => exact ⟨rfl, rfl⟩
  | cons c cs ih =>
    obtain ⟨ih0, ih1⟩ := ih
    by_cases hc : pySpace c = true
    · -- whitespace head
      have htok : wsTokens (c :: cs) = wsTokens cs := wsTokens_cons_space c cs hc
      cases cs with
      | nil =>
        have h1 : trailMark [c] = [] := by
          unfold trailMark
          simp [htok, hc, splitStep, wsTokens, splitAux]
        constructor
        · rw [collapse_cons_space_false c [] hc, htok, h1]
          simp [collapseWsAux, leadMark, hc, joinTokens, List.intercalate,
            wsTokens, splitAux]
        · rw [collapse_cons_space_true c [] hc, htok, h1]
          simp [collapseWsAux, joinTokens, List.intercalate, wsTokens, splitAux]
      | cons e es =>
        have htrail : trailMark (c :: e :: es) = trailMark (e :: es) := by
          unfold trailMark
          rw [List.getLast?_cons_cons, htok]
        constructor
        · rw [collapse_cons_space_false c (e :: es) hc]
          rw [ih1, htok, htrail, leadMark]
          simp [hc]
        · rw [collapse_cons_space_true c (e :: es) hc]
          rw [ih1, htok, htrail]
    · -- non-space head
      simp only [Bool.not_eq_true] at hc
      have hmain : c :: collapseWsAux cs false =
          joinTokens (wsTokens (c :: cs)) ++ trailMark (c :: cs) := by
        cases cs with
        | nil =>
          have htok : wsTokens [c] = [[c]] := by
            rw [wsTokens_cons_new c [] hc rfl]; rfl
          show c :: collapseWsAux [] false = _
          rw [htok, joinTokens_single]
          unfold trailMark
          simp [hc, collapseWsAux, htok]
        | cons e es =>
          by_cases he : pySpace e = true
          · -- the tail starts with whitespace: the head opens a new token
            have hflag : (splitAux (e :: es)).2 = false := by
              rw [splitAux_snd]; simp [he]
            have htok : wsTokens (c :: e :: es) = [c] :: wsTokens (e :: es) :=
              wsTokens_cons_new c (e :: es) hc hflag
            rw [ih0]
            rcases htcs : wsTokens (e :: es) with _ | ⟨t, ts⟩
            · -- no token after: the trail marker of the whole appears
              have hlast : ∃ d, (e :: es).getLast? = some d ∧ pySpace d = true := by
                rcases hg : (e :: es).getLast? with _ | d
                · simp at hg
                · exact ⟨d, rfl, wsTokens_nil_allspace _ htcs d (by
                    have := List.getLast?_eq_some_iff.1 hg
                    obtain ⟨ys, hys⟩ := this
                    rw [hys]; simp)⟩
              obtain ⟨d, hd1, hd2⟩ := hlast
              have h1 : trailMark (e :: es) = [] := by
                unfold trailMark
                rw [hd1, htcs]
                simp
              have h2 : trailMark (c :: e :: es) = [' '] := by
                unfold trailMark
                rw [List.getLast?_cons_cons, hd1, htok, htcs]
                simp [hd2]
              rw [htok, htcs, h1, h2, joinTokens_single]
              simp [leadMark, he, joinTokens, List.intercalate]
            · have h2 : trailMark (c :: e :: es) = trailMark (e :: es) := by
                unfold trailMark
                rw [List.getLast?_cons_cons, htok, htcs]
                simp
              rw [htok, htcs, joinTokens_cons2, h2]
              simp [leadMark, he]
          · -- the tail starts with a token character: the head extends it
            simp only [Bool.not_eq_true] at he
            have hflag : (splitAux (e :: es)).2 = true := by
              rw [splitAux_snd]; simp [he]
            obtain ⟨t, ts, hts, hcons⟩ := wsTokens_cons_extend c (e :: es) hc hflag
            have h2 : trailMark (c :: e :: es) = trailMark (e :: es) := by
              unfold trailMark
              rw [List.getLast?_cons_cons, hcons, hts]
              simp
            rw [ih0, hcons, h2, hts]
            simp only [leadMark, he, if_false, Bool.false_eq_true, List.nil_append]
            cases ts with
            | nil =>
              rw [joinTokens_single, joinTokens_single]
              rfl
            | cons t2 ts2 =>
              rw [joinTokens_cons2, joinTokens_cons2]
              simp
      constructor
      · rw [collapse_cons_nonspace c cs hc false, hmain]
        simp [leadMark, hc]
      · rw [collapse_cons_nonspace c cs hc true, hmain]

/-- Collapsing whitespace runs and stripping equals joining the
whitespace tokens with single spaces. -/
theorem strip_collapse (l : List Char) :
    pyStrip (collapseWs l) = joinTokens (wsTokens l) := by
  rw [collapseWs, (collapse_join l).1]
  rcases htok : wsTokens l with _ | ⟨t, ts⟩
  · have h1 : trailMark l = [] := by
      unfold trailMark
      rcases hg : l.getLast? with _ | d
      · rfl
      · rw [htok]; simp
    rw [h1]
    show pyStrip (leadMark l ++ [] ++ []) = []
    have h2 : pyStrip (leadMark l) = [] := by
      unfold leadMark
      rcases l with _ | ⟨c, cs⟩
      · rfl
      · by_cases hc : pySpace c = true <;> simp [hc] <;> rfl
    simpa using h2
  · have hgood : ∀ u ∈ wsTokens l, u ≠ [] ∧ ∀ c ∈ u, pySpace c = false :=
      fun u hu => ⟨(wsTokens_good l u hu).1,
        fun c hcmem => ((wsTokens_good l u hu).2 c hcmem).1⟩
    rw [htok] at hgood
    apply pyStrip_sandwich
    · unfold leadMark
      rcases l with _ | ⟨c, cs⟩
      · exact Or.inl rfl
      · by_cases hc : pySpace c = true <;> simp [hc]
    · unfold trailMark
      rcases hg : l.getLast? with _ | d
      · exact Or.inl rfl
      · by_cases hd : (pySpace d && !(wsTokens l).isEmpty) = true <;> simp [hd]
    · exact joinTokens_head _ hgood (by simp)
    · exact joinTokens_rev_head _ hgood (by simp)

/-- Mapping a function that fixes every element is the identity. -/
theorem map_id_on {f : Char → Char} : ∀ (l : List Char),
    (∀ c ∈ l, f c = c) → l.map f = l := by
  intro l
  induction l with
  | nil => intro _; rfl
  | cons c cs ih =>
    intro h
    rw [List.map_cons, h c (List.mem_cons_self _ _),
      ih (fun x hx => h x (List.mem_cons_of_mem _ hx))]

/-- Kept non-whitespace characters are fixed by the lowering model. -/
theorem pyLower_fix_keep (c : Char) (hk : keepChar c = true)
    (hs : pySpace c = false) : pyLower c = c := by
  simp only [keepChar, Bool.or_eq_true, decide_eq_true_eq, hs,
    Bool.or_false] at hk
  unfold pyLower
  have h1 : ¬(65 ≤ c.toNat ∧ c.toNat ≤ 90) := by omega
  have h2 : ¬(c.toNat = 0x401) := by omega
  have h3 : ¬(0x410 ≤ c.toNat ∧ c.toNat ≤ 0x42F) := by omega
  rw [if_neg h1, if_neg h2, if_neg h3]

/-- Kept non-whitespace characters are fixed by the ё folding. -/
theorem foldYo_fix_keep (c : Char) (hk : keepChar c = true)
    (hs : pySpace c = false) : foldYo c = c := by
  simp only [keepChar, Bool.or_eq_true, decide_eq_true_eq, hs,
    Bool.or_false] at hk
  unfold foldYo
  rw [if_neg]
  intro hc
  have : c.toNat = 0x451 := by rw [hc]; rfl
  omega

/-- The space character is kept and fixed by every stage. -/
theorem space_stage_facts :
    keepChar ' ' = true ∧ pyLower ' ' = ' ' ∧ foldYo ' ' = ' ' := by
  refine ⟨rfl, ?_, rfl⟩
  decide

/-- The normalized text is the space-join of the tokens of the filtered
character list. -/
theorem normalize_data (s : String) :
    (normalize_text s).data = joinTokens (wsTokens (normFiltered s)) := by
  show pyStrip (collapseWs (normFiltered s)) = _
  exact strip_collapse _

/-- Every character of a normalized string is the space or a kept
non-space character. -/
theorem normalize_chars (s : String) (c : Char)
    (hc : c ∈ (normalize_text s).data) :
    c = ' ' ∨ (keepChar c = true ∧ pySpace c = false) := by
  rw [normalize_data] at hc
  rcases mem_joinTokens _ c hc with h | ⟨t, ht, hct⟩
  · exact Or.inl h
  · right
    obtain ⟨_, hprops⟩ := wsTokens_good (normFiltered s) t ht
    obtain ⟨hns, hmem⟩ := hprops c hct
    exact ⟨(List.mem_filter.1 hmem).2, hns⟩

/-- The three per-character stages of normalize_text fix every character
of a normalized string. -/
theorem normalize_stage_fix (s : String) (c : Char)
    (hc : c ∈ (normalize_text s).data) :
    pyLower c = c ∧ foldYo c = c ∧ keepChar c = true := by
  rcases normalize_chars s c hc with rfl | ⟨hk, hs⟩
  · exact ⟨space_stage_facts.2.1, space_stage_facts.2.2, space_stage_facts.1⟩
  · exact ⟨pyLower_fix_keep c hk hs, foldYo_fix_keep c hk hs, hk⟩

/-- Filtering with a predicate every element satisfies is the identity. -/
theorem filter_id_on {p : Char → Bool} : ∀ (l : List Char),
    (∀ c ∈ l, p c = true) → l.filter p = l := by
  intro l
  induction l with
  | nil => intro _; rfl
  | cons c cs ih =>
    intro h
    rw [List.filter_cons, if_pos (h c (List.mem_cons_self _ _)),
      ih (fun x hx => h x (List.mem_cons_of_mem _ hx))]

/-- Claim C10: normalize is idempotent. -/
theorem C10_thm (s : String) :
    normalize_text (normalize_text s) = normalize_text s := by
  have hfix : normFiltered (normalize_text s) = (normalize_text s).data := by
    unfold normFiltered
    rw [map_id_on (normalize_text s).data
        (fun c hc => (normalize_stage_fix s c hc).1),
      map_id_on (normalize_text s).data
        (fun c hc => (normalize_stage_fix s c hc).2.1),
      filter_id_on (normalize_text s).data
        (fun c hc => (normalize_stage_fix s c hc).2.2)]
  have hgood : ∀ t ∈ wsTokens (normFiltered s),
      t ≠ [] ∧ ∀ c ∈ t, pySpace c = false :=
    fun t ht => ⟨(wsTokens_good _ t ht).1,
      fun c hc => ((wsTokens_good _ t ht).2 c hc).1⟩
  have : (normalize_text (normalize_text s)).data = (normalize_text s).data := by
    rw [normalize_data (normalize_text s), hfix, normalize_data s,
      wsTokens_joinTokens _ hgood, ← normalize_data s]
  calc normalize_text (normalize_text s)
      = String.mk (normalize_text (normalize_text s)).data := rfl
    _ = String.mk (normalize_text s).data := by rw [this]
    _ = normalize_text s := rfl

/-- A list of non-space characters satisfies the no-adjacent-spaces
chain. -/
theorem chain_of_nonspace : ∀ (l : List Char),
    (∀ c ∈ l, pySpace c = false) →
    List.Chain' (fun a b => pySpace a = false ∨ pySpace b = false) l := by
  intro l
  induction l with
  | nil => intro _; simp
  | cons c cs ih =>
    intro h
    rw [List.chain'_cons']
    exact ⟨fun y _ => Or.inl (h c (List.mem_cons_self _ _)),
      ih (fun x hx => h x (List.mem_cons_of_mem _ hx))⟩

/-- The space-join of good tokens never has two adjacent space
characters. -/
theorem chain_joinTokens : ∀ (ts : List (List Char)),
    (∀ t ∈ ts, t ≠ [] ∧ ∀ c ∈ t, pySpace c = false) →
    List.Chain' (fun a b => pySpace a = false ∨ pySpace b = false)
      (joinTokens ts) := by
  intro ts
  induction ts with
  | nil => intro _; simp [joinTokens, List.intercalate]
  | cons t rest ih =>
    intro h
    cases rest with
    | nil =>
      rw [joinTokens_single]
      exact chain_of_nonspace t (h t (by simp)).2
    | cons t2 rest2 =>
      rw [joinTokens_cons2]
      rw [List.chain'_append]
      refine ⟨chain_of_nonspace t (h t (by simp)).2, ?_, ?_⟩
      · rw [List.chain'_cons']
        refine ⟨?_, ih (fun x hx => h x (List.mem_cons_of_mem _ hx))⟩
        intro y hy
        obtain ⟨c, r0, hj, hcn⟩ := joinTokens_head (t2 :: rest2)
          (fun x hx => h x (List.mem_cons_of_mem _ hx)) (by simp)
        rw [hj] at hy
        simp only [List.head?_cons, Option.mem_def, Option.some.injEq] at hy
        subst hy
        exact Or.inr hcn
      · intro x hx y _
        have hxmem : x ∈ t := by
          rcases List.mem_getLast?_eq_getLast hx with ⟨hne, rfl⟩
          exact List.getLast_mem hne
        exact Or.inl ((h t (by simp)).2 x hxmem)

/-- A list of whitespace characters has no tokens. -/
theorem wsTokens_of_allspace : ∀ (l : List Char),
    (∀ x ∈ l, pySpace x = true) → wsTokens l = [] := by
  intro l
  induction l with
  | nil => intro _; rfl
  | cons c cs ih =>
    intro h
    rw [wsTokens_cons_space c cs (h c (List.mem_cons_self _ _))]
    exact ih (fun x hx => h x (List.mem_cons_of_mem _ hx))

/-- Claim C6, counterexample.  The claim states the filter is
Unicode-aware, removing only characters that are not letters, digits or
whitespace.  The code keeps only lowercase ASCII letters, digits,
Cyrillic а-я and whitespace, so the Latin letter é of café is removed:
normalize gives caf, while under the claim the letter would be kept. -/
theorem C6_cx :
    normalize_text "café" = "caf" ∧ ("caf" : String) ≠ "café" := by
  decide

/-- Claim C6 (amended): normalize lower-cases, folds ё to е, and keeps
exactly the characters of the class lowercase Latin a-z, ASCII digits,
Cyrillic а-я and whitespace, removing every other character (including
letters outside these ranges); it collapses whitespace runs (no two
adjacent space characters remain) and trims both ends; it is a pure
total function and returns the empty string on empty or symbol-only
input. -/
theorem C6_thm (s : String) :
    (∀ c ∈ (normalize_text s).data,
      keepChar c = true ∧ pyLower c = c ∧ foldYo c = c) ∧
    pyStrip (normalize_text s).data = (normalize_text s).data ∧
    List.Chain' (fun a b => pySpace a = false ∨ pySpace b = false)
      (normalize_text s).data ∧
    ((∀ c ∈ s.data, pySpace (foldYo (pyLower c)) = true ∨
        keepChar (foldYo (pyLower c)) = false) → normalize_text s = "") := by
  have hgood : ∀ t ∈ wsTokens (normFiltered s),
      t ≠ [] ∧ ∀ c ∈ t, pySpace c = false :=
    fun t ht => ⟨(wsTokens_good _ t ht).1,
      fun c hc => ((wsTokens_good _ t ht).2 c hc).1⟩
  refine ⟨?_, ?_, ?_, ?_⟩
  · intro c hc
    obtain ⟨h1, h2, h3⟩ := normalize_stage_fix s c hc
    exact ⟨h3, h1, h2⟩
  · rw [normalize_data]
    rcases htok : wsTokens (normFiltered s) with _ | ⟨t, ts⟩
    · rfl
    · rw [htok] at hgood
      have := pyStrip_sandwich (joinTokens (t :: ts)) [] []
        (Or.inl rfl) (Or.inl rfl)
        (joinTokens_head _ hgood (by simp))
        (joinTokens_rev_head _ hgood (by simp))
      simpa using this
  · rw [normalize_data]
    exact chain_joinTokens _ hgood
  · intro h
    have hall : ∀ x ∈ normFiltered s, pySpace x = true := by
      intro x hx
      unfold normFiltered at hx
      obtain ⟨hmem, hkeep⟩ := List.mem_filter.1 hx
      obtain ⟨y, hy, hyx⟩ := List.mem_map.1 hmem
      obtain ⟨z, hz, hzy⟩ := List.mem_map.1 hy
      rcases h z hz with hsp | hnk
      · rw [← hyx, ← hzy]; exact hsp
      · rw [← hyx, ← hzy] at hkeep
        rw [hkeep] at hnk
        cases hnk
    have : (normalize_text s).data = [] := by
      rw [normalize_data, wsTokens_of_allspace _ hall]
      rfl
    calc normalize_text s = String.mk (normalize_text s).data := rfl
      _ = String.mk [] := by rw [this]
      _ = "" := rfl

/-- Claim C6 (amended), witness: a symbol-only input normalizes to the
empty string, and a character of a concrete normalized Cyrillic string
is in the kept class and fixed by lowering and folding, both through
the theorem. -/
theorem C6_witness :
    normalize_text "?!." = "" ∧
    (keepChar 'м' = true ∧ pyLower 'м' = 'м' ∧ foldYo 'м' = 'м') :=
  ⟨(C6_thm "?!.").2.2.2 (by decide), (C6_thm "Мёд?").1 'м' (by decide)⟩

/-- Uniform unfolding of the miele scan on a cons. -/
theorem stripMieleScan_cons (c : Char) (cs : List Char) (p : Bool) :
    stripMieleScan (c :: cs) p =
      if !p && mieleHead (c :: cs) then stripMieleScan (cs.drop 4) true
      else c :: stripMieleScan cs (isWordChar c) := by
  match cs with
  | [] => simp [stripMieleScan, mieleHead]
  | [d1] => simp [stripMieleScan, mieleHead]
  | [d1, d2] => simp [stripMieleScan, mieleHead]
  | [d1, d2, d3] => simp [stripMieleScan, mieleHead]
  | d1 :: d2 :: d3 :: d4 :: rest => rfl

/-- Code point equality determines character equality. -/
theorem char_toNat_inj (a b : Char) (h : a.toNat = b.toNat) : a = b := by
  have h2 := congrArg Char.ofNat h
  rwa [Char.ofNat_toNat, Char.ofNat_toNat] at h2

/-- The word-character class, as numeric ranges of code points. -/
theorem isWordChar_iff (c : Char) :
    isWordChar c = true ↔
      ((97 ≤ c.toNat ∧ c.toNat ≤ 122) ∨ (65 ≤ c.toNat ∧ c.toNat ≤ 90) ∨
       (48 ≤ c.toNat ∧ c.toNat ≤ 57) ∨ c.toNat = 95 ∨
       (0x410 ≤ c.toNat ∧ c.toNat ≤ 0x44F) ∨ c.toNat = 0x401 ∨
       c.toNat = 0x451) := by
  have h95 : c = '_' ↔ c.toNat = 95 :=
    ⟨fun hc => by rw [hc]; rfl, fun hn => char_toNat_inj _ _ (by rw [hn]; rfl)⟩
  simp only [isWordChar, Bool.or_eq_true, decide_eq_true_eq, beq_iff_eq, h95]
  tauto

/-- The whitespace class, as numeric code points. -/
theorem pySpace_iff (c : Char) :
    pySpace c = true ↔
      (c.toNat = 32 ∨ c.toNat = 9 ∨ c.toNat = 10 ∨ c.toNat = 13 ∨
       c.toNat = 11 ∨ c.toNat = 12) := by
  have e1 : c = ' ' ↔ c.toNat = 32 :=
    ⟨fun hc => by rw [hc]; rfl, fun hn => char_toNat_inj _ _ (by rw [hn]; rfl)⟩
  have e2 : c = '\t' ↔ c.toNat = 9 :=
    ⟨fun hc => by rw [hc]; rfl, fun hn => char_toNat_inj _ _ (by rw [hn]; rfl)⟩
  have e3 : c = '\n' ↔ c.toNat = 10 :=
    ⟨fun hc => by rw [hc]; rfl, fun hn => char_toNat_inj _ _ (by rw [hn]; rfl)⟩
  have e4 : c = '\r' ↔ c.toNat = 13 :=
    ⟨fun hc => by rw [hc]; rfl, fun hn => char_toNat_inj _ _ (by rw [hn]; rfl)⟩
  simp only [pySpace, Bool.or_eq_true, beq_iff_eq, e1, e2, e3, e4]
  tauto

/-- A word character is not whitespace. -/
theorem wordChar_not_space (c : Char) (h : isWordChar c = true) :
    pySpace c = false := by
  rw [isWordChar_iff] at h
  by_contra hs
  simp only [Bool.not_eq_false, pySpace_iff] at hs
  omega

/-- A non-word character is fixed by the lowering model. -/
theorem nonword_lower (c : Char) (h : isWordChar c = false) : pyLower c = c := by
  have h2 : ¬ (isWordChar c = true) := by simp [h]
  rw [isWordChar_iff] at h2
  push_neg at h2
  unfold pyLower
  rw [if_neg (by omega), if_neg (by omega), if_neg (by omega)]

/-- A non-word character does not lower to any of the letters of
miele. -/
theorem nonword_ne_miele_letter (c : Char) (h : isWordChar c = false) :
    pyLower c ≠ 'm' ∧ pyLower c ≠ 'i' ∧ pyLower c ≠ 'e' ∧ pyLower c ≠ 'l' := by
  rw [nonword_lower c h]
  refine ⟨?_, ?_, ?_, ?_⟩ <;> intro hc <;> rw [hc] at h <;>
    exact absurd h (by decide)

/-- After a word character the scan never starts a match. -/
theorem stripScan_true_cons (c : Char) (cs : List Char) :
    stripMieleScan (c :: cs) true = c :: stripMieleScan cs (isWordChar c) := by
  rw [stripMieleScan_cons]
  simp

/-- The scan copies a run of word characters verbatim when the previous
character was a word character. -/
theorem stripScan_wordrun : ∀ (w l : List Char),
    (∀ c ∈ w, isWordChar c = true) →
    stripMieleScan (w ++ l) true = w ++ stripMieleScan l true := by
  intro w
  induction w with
  | nil => intro l _; rfl
  | cons c cs ih =>
    intro l h
    rw [List.cons_append, stripScan_true_cons,
      h c (List.mem_cons_self _ _),
      ih l (fun x hx => h x (List.mem_cons_of_mem _ hx))]
    rfl

/-- Elimination form of a successful match position. -/
theorem mieleHead_true (X : List Char) (h : mieleHead X = true) :
    ∃ c1 c2 c3 c4 c5 rest, X = c1 :: c2 :: c3 :: c4 :: c5 :: rest ∧
      pyLower c1 = 'm' ∧ pyLower c2 = 'i' ∧ pyLower c3 = 'e' ∧
      pyLower c4 = 'l' ∧ pyLower c5 = 'e' ∧
      (rest = [] ∨ ∃ d ds, rest = d :: ds ∧ isWordChar d = false) := by
  match X with
  | [] => simp [mieleHead] at h
  | [_] => simp [mieleHead] at h
  | [_, _] => simp [mieleHead] at h
  | [_, _, _] => simp [mieleHead] at h
  | [_, _, _, _] => simp [mieleHead] at h
  | c1 :: c2 :: c3 :: c4 :: c5 :: rest =>
    simp only [mieleHead, Bool.and_eq_true, beq_iff_eq] at h
    obtain ⟨⟨⟨⟨⟨h1, h2⟩, h3⟩, h4⟩, h5⟩, h6⟩ := h
    refine ⟨c1, c2, c3, c4, c5, rest, rfl, h1, h2, h3, h4, h5, ?_⟩
    cases rest with
    | nil => exact Or.inl rfl
    | cons d ds =>
      simp only [Bool.not_eq_true'] at h6
      exact Or.inr ⟨d, ds, rfl, h6⟩

/-- No match can start at a word token that is not the brand word when
the token is followed by the end or a non-word character. -/
theorem mieleHead_token_false (t l : List Char) (ht : t ≠ [])
    (hw : ∀ c ∈ t, isWordChar c = true)
    (hnm : t.map pyLower ≠ "miele".data)
    (hb : l = [] ∨ ∃ d ds, l = d :: ds ∧ isWordChar d = false) :
    mieleHead (t ++ l) = false := by
  by_contra hcon
  simp only [Bool.not_eq_false] at hcon
  obtain ⟨c1, c2, c3, c4, c5, rest, hX, h1, h2, h3, h4, h5, hbd⟩ :=
    mieleHead_true _ hcon
  rcases t with _ | ⟨a1, t⟩
  · exact ht rfl
  rcases t with _ | ⟨a2, t⟩
  · rcases hb with rfl | ⟨d, ds, rfl, hd⟩
    · simp at hX
    · simp only [List.cons_append, List.nil_append, List.cons.injEq] at hX
      obtain ⟨_, e2, _⟩ := hX
      rw [← e2] at h2
      exact (nonword_ne_miele_letter d hd).2.1 h2
  rcases t with _ | ⟨a3, t⟩
  · rcases hb with rfl | ⟨d, ds, rfl, hd⟩
    · simp at hX
    · simp only [List.cons_append, List.nil_append, List.cons.injEq] at hX
      obtain ⟨_, _, e3, _⟩ := hX
      rw [← e3] at h3
      exact (nonword_ne_miele_letter d hd).2.2.1 h3
  rcases t with _ | ⟨a4, t⟩
  · rcases hb with rfl | ⟨d, ds, rfl, hd⟩
    · simp at hX
    · simp only [List.cons_append, List.nil_append, List.cons.injEq] at hX
      obtain ⟨_, _, _, e4, _⟩ := hX
      rw [← e4] at h4
      exact (nonword_ne_miele_letter d hd).2.2.2 h4
  rcases t with _ | ⟨a5, t⟩
  · rcases hb with rfl | ⟨d, ds, rfl, hd⟩
    · simp at hX
    · simp only [List.cons_append, List.nil_append, List.cons.injEq] at hX
      obtain ⟨_, _, _, _, e5, _⟩ := hX
      rw [← e5] at h5
      exact (nonword_ne_miele_letter d hd).2.2.1 h5
  · simp only [List.cons_append, List.cons.injEq] at hX
    obtain ⟨e1, e2, e3, e4, e5, hX6⟩ := hX
    cases t with
    | nil =>
      apply hnm
      rw [e1, e2, e3, e4, e5]
      simp only [List.map_cons, List.map_nil, h1, h2, h3, h4, h5]
    | cons b t2 =>
      have hbw : isWordChar b = true := hw b (by simp)
      rcases hbd with hrest | ⟨d, ds, hrest, hd⟩
      · rw [← hX6] at hrest
        simp at hrest
      · rw [← hX6] at hrest
        simp only [List.cons_append, List.cons.injEq] at hrest
        obtain ⟨ee, _⟩ := hrest
        rw [ee] at hbw
        rw [hbw] at hd
        cases hd

/-- Is this token, lowered, exactly the brand word? -/
def isMieleTok (t : List Char) : Bool :=
  t.map pyLower == "miele".data

/-- The scan deletes a brand-word token standing at a word boundary. -/
theorem stripScan_miele (t l : List Char)
    (hm : t.map pyLower = "miele".data)
    (hb : l = [] ∨ ∃ d ds, l = d :: ds ∧ isWordChar d = false) :
    stripMieleScan (t ++ l) false = stripMieleScan l true := by
  have hm' : t.map pyLower = ['m', 'i', 'e', 'l', 'e'] := hm
  rcases t with _ | ⟨a1, t⟩
  · simp at hm'
  rcases t with _ | ⟨a2, t⟩
  · simp at hm'
  rcases t with _ | ⟨a3, t⟩
  · simp at hm'
  rcases t with _ | ⟨a4, t⟩
  · simp at hm'
  rcases t with _ | ⟨a5, t⟩
  · simp at hm'
  rcases t with _ | ⟨a6, t⟩
  case cons => simp at hm'
  simp only [List.map_cons, List.map_nil, List.cons.injEq, and_true] at hm'
  obtain ⟨h1, h2, h3, h4, h5⟩ := hm'
  show stripMieleScan (a1 :: a2 :: a3 :: a4 :: a5 :: l) false = _
  rw [stripMieleScan_cons]
  have hmh : mieleHead (a1 :: a2 :: a3 :: a4 :: a5 :: l) = true := by
    simp only [mieleHead, Bool.and_eq_true, beq_iff_eq]
    refine ⟨⟨⟨⟨⟨h1, h2⟩, h3⟩, h4⟩, h5⟩, ?_⟩
    rcases hb with rfl | ⟨d, ds, rfl, hd⟩
    · rfl
    · simp [hd]
  rw [hmh]
  rw [if_pos (by simp)]
  rfl

/-- The scan copies a non-brand word token standing at a word boundary. -/
theorem stripScan_token (t l : List Char) (ht : t ≠ [])
    (hw : ∀ c ∈ t, isWordChar c = true)
    (hnm : t.map pyLower ≠ "miele".data)
    (hb : l = [] ∨ ∃ d ds, l = d :: ds ∧ isWordChar d = false) :
    stripMieleScan (t ++ l) false = t ++ stripMieleScan l true := by
  rcases t with _ | ⟨c, cs⟩
  · exact absurd rfl ht
  rw [List.cons_append, stripMieleScan_cons]
  have hmh : mieleHead (c :: (cs ++ l)) = false := by
    have := mieleHead_token_false (c :: cs) l (by simp) hw hnm hb
    simpa [List.cons_append] using this
  rw [hmh, if_neg (by simp)]
  rw [hw c (List.mem_cons_self _ _),
    stripScan_wordrun cs l (fun x hx => hw x (List.mem_cons_of_mem _ hx))]
  rfl

/-- Scanning the space-join of word tokens keeps exactly the non-brand
tokens. -/
theorem stripScan_join : ∀ (ts : List (List Char)),
    (∀ t ∈ ts, t ≠ [] ∧ ∀ c ∈ t, isWordChar c = true) →
    wsTokens (stripMieleScan (joinTokens ts) false) =
      ts.filter (fun t => !(isMieleTok t)) := by
  intro ts
  induction ts with
  | nil => intro _; rfl
  | cons t rest ih =>
    intro h
    have htne := (h t (by simp)).1
    have htw := (h t (by simp)).2
    have htns : ∀ c ∈ t, pySpace c = false :=
      fun c hc => wordChar_not_space c (htw c hc)
    cases rest with
    | nil =>
      rw [joinTokens_single]
      by_cases hm : t.map pyLower = "miele".data
      · have hstep := stripScan_miele t [] hm (Or.inl rfl)
        simp only [List.append_nil] at hstep
        rw [hstep, show stripMieleScan [] true = [] from rfl]
        simp [isMieleTok, hm, List.filter_cons, wsTokens, splitAux]
      · have hstep := stripScan_token t [] htne htw hm (Or.inl rfl)
        simp only [List.append_nil] at hstep
        rw [hstep, show stripMieleScan [] true = [] from rfl, List.append_nil,
          wsTokens_single t htne htns]
        simp [isMieleTok, hm, List.filter_cons]
    | cons t2 rest2 =>
      rw [joinTokens_cons2]
      have hb : (' ' :: joinTokens (t2 :: rest2)) = [] ∨
          ∃ d ds, (' ' :: joinTokens (t2 :: rest2)) = d :: ds ∧
            isWordChar d = false :=
        Or.inr ⟨' ', _, rfl, by decide⟩
      by_cases hm : t.map pyLower = "miele".data
      · rw [stripScan_miele t _ hm hb, stripScan_true_cons,
          show isWordChar ' ' = false from by decide,
          wsTokens_cons_space ' ' _ (by decide),
          ih (fun x hx => h x (List.mem_cons_of_mem _ hx))]
        simp [isMieleTok, hm, List.filter_cons]
      · rw [stripScan_token t _ htne htw hm hb, stripScan_true_cons,
          show isWordChar ' ' = false from by decide,
          wsTokens_append_space, wsTokens_single t htne htns,
          ih (fun x hx => h x (List.mem_cons_of_mem _ hx))]
        simp [isMieleTok, hm, List.filter_cons]

/-- The space-join of a list of strings. -/
def strJoin (ts : List String) : String :=
  String.mk (joinTokens (ts.map String.data))

/-- Filtering commutes with projecting strings to character lists. -/
theorem filter_map_data (p : List Char → Bool) : ∀ (ts : List String),
    (ts.map String.data).filter p =
      (ts.filter (fun t => p t.data)).map String.data := by
  intro ts
  induction ts with
  | nil => rfl
  | cons t rest ih =>
    simp only [List.map_cons, List.filter_cons]
    by_cases hp : p t.data = true
    · simp [hp, ih]
    · simp only [Bool.not_eq_true] at hp
      simp [hp, ih]

/-- Claim C8: remove_miele deletes every whole-word, case insensitive
occurrence of the brand token and re-collapses whitespace, matching only
at word boundaries: on any space-join of word-character tokens it keeps
exactly the tokens that are not, lowered, the brand word — in
particular a token with the brand embedded in a longer word is kept. -/
theorem C8_thm (ts : List String)
    (h : ∀ t ∈ ts, t ≠ "" ∧ ∀ c ∈ t.data, isWordChar c = true) :
    remove_miele (strJoin ts) =
      strJoin (ts.filter (fun t => !(isMieleTok t.data))) := by
  have hts : ∀ u ∈ ts.map String.data, u ≠ [] ∧ ∀ c ∈ u, isWordChar c = true := by
    intro u hu
    obtain ⟨t, htmem, rfl⟩ := List.mem_map.1 hu
    refine ⟨?_, (h t htmem).2⟩
    intro hc
    apply (h t htmem).1
    have ht : t = String.mk t.data := rfl
    rw [ht, hc]
  unfold remove_miele
  have hdata : (strJoin ts).data = joinTokens (ts.map String.data) := rfl
  rw [hdata, strip_collapse, stripScan_join _ hts]
  unfold strJoin
  rw [filter_map_data]

/-- Claim C8, witness: the documented examples, through the theorem:
the embedded occurrence in mielefoo is kept, the whole word Miele of
Miele Foo (after cleaning) is stripped. -/
theorem C8_witness :
    remove_miele "mielefoo bar" = "mielefoo bar" ∧
    remove_miele (normalize_text "Miele Foo") = "foo" := by
  constructor
  · have h := C8_thm ["mielefoo", "bar"] (by decide)
    have e1 : strJoin ["mielefoo", "bar"] = "mielefoo bar" := by decide
    have e2 : strJoin (["mielefoo", "bar"].filter
        (fun t => !(isMieleTok t.data))) = "mielefoo bar" := by decide
    rw [e1, e2] at h
    exact h
  · have h := C8_thm ["miele", "foo"] (by decide)
    have e1 : strJoin ["miele", "foo"] = normalize_text "Miele Foo" := by decide
    have e2 : strJoin (["miele", "foo"].filter
        (fun t => !(isMieleTok t.data))) = "foo" := by decide
    rw [e1, e2] at h
    exact h

/-- Claim C3 (amended), witness: on a one-candidate input the output
links are distinct and the single result is the first eligible candidate
with its link, through the theorem. -/
theorem C3_witness :
    ∃ h, ((([(⟨"abc", "L", some (some 5)⟩ : MielesItem)]).filterMap
        (mielesHitFn "abc" "abc")).filter
          (fun y => y.link == h.link)).head? = some h ∧
      (⟨"abc", "L", 5⟩ : MielesResult) = mielesResultOf h :=
  (C3_thm.2 "abc" "abc" [⟨"abc", "L", some (some 5)⟩]).2
    ⟨"abc", "L", 5⟩ (by decide)
